import Mathlib

/-!
A Lean model of the A* path-finding visualiser (a_star_visualiser.py) and
proofs about its behaviour.  The definitions mirror the Python source:
nodes carry a colour that encodes their state, the grid is a list of lists
of nodes, and the search engine is the loop of generate_path.  Rendering is
omitted (the engine never reads colours during a run) and the event-driven
early stop (pressing Q or quitting) is modelled as a Boolean signal indexed
by the loop iteration.  Machine floats only appear as float("inf") used as
a default score, modelled by Option Nat with none standing for infinity.
-/

namespace AStar

/-- RGB colour names used by the program; a node's state is its colour,
following the states table of the Node class (red=closed, green=open,
black=barrier, orange=start, turquoise=end, purple=path, white=empty). -/
inductive NodeColor where
  | white
  | gray
  | black
  | red
  | green
  | blue
  | turquoise
  | purple
  | yellow
  | orange
deriving DecidableEq, Repr, Inhabited

/-- A grid position (row, column).  Python nodes are identified by their
position in the grid, since the program never aliases two nodes. -/
abbrev Pos := Nat × Nat

/-- Pointwise update of a map, modelling a dictionary or attribute write. -/
def upd {α : Type} (f : Pos → α) (p : Pos) (a : α) : Pos → α :=
  fun q => if q = p then a else f q

@[simp] theorem upd_same {α : Type} (f : Pos → α) (p : Pos) (a : α) :
    upd f p a p = a := by
  simp [upd]

theorem upd_other {α : Type} (f : Pos → α) {p q : Pos} (a : α) (h : q ≠ p) :
    upd f p a q = f q := by
  simp [upd, h]

/-- manhattan_distance from the source: abs(x1-x2) + abs(y1-y2). -/
def manhattan_distance (point1 point2 : Pos) : Nat :=
  Nat.dist point1.1 point2.1 + Nat.dist point1.2 point2.2

/-- The Node class: row, column, width, total_rows are set in __init__,
x and y are the pixel coordinates row*width and column*width, color is the
state tag and neighbors the list of available neighbor positions. -/
structure Node where
  row : Nat
  column : Nat
  width : Nat
  total_rows : Nat
  x : Nat
  y : Nat
  color : NodeColor
  neighbors : List Pos
deriving DecidableEq, Repr, Inhabited

/-- Node.__init__: a fresh white node with empty neighbor list. -/
def Node.make (row column width total_rows : Nat) : Node :=
  { row := row
    column := column
    width := width
    total_rows := total_rows
    x := row * width
    y := column * width
    color := NodeColor.white
    neighbors := [] }

def Node.is_closed (n : Node) : Bool := n.color = NodeColor.red

def Node.is_open (n : Node) : Bool := n.color = NodeColor.green

def Node.is_barrier (n : Node) : Bool := n.color = NodeColor.black

def Node.is_start (n : Node) : Bool := n.color = NodeColor.orange

def Node.is_end (n : Node) : Bool := n.color = NodeColor.turquoise

def Node.is_path (n : Node) : Bool := n.color = NodeColor.purple

def Node.make_closed (n : Node) : Node := { n with color := NodeColor.red }

def Node.make_open (n : Node) : Node := { n with color := NodeColor.green }

def Node.make_barrier (n : Node) : Node := { n with color := NodeColor.black }

def Node.make_start (n : Node) : Node := { n with color := NodeColor.orange }

def Node.make_end (n : Node) : Node := { n with color := NodeColor.turquoise }

def Node.make_path (n : Node) : Node := { n with color := NodeColor.purple }

/-- Node.reset: color back to white and the neighbor list emptied. -/
def Node.reset (n : Node) : Node :=
  { n with color := NodeColor.white, neighbors := [] }

/-- create_grid: an N x N grid of fresh nodes, node_width = surface_width // total_rows. -/
def create_grid (total_rows surface_width : Nat) : List (List Node) :=
  (List.range total_rows).map fun row =>
    (List.range total_rows).map fun column =>
      Node.make row column (surface_width / total_rows) total_rows

/-- grid[r][c], with a default node for out-of-range indices (Python would
raise IndexError; all verified accesses are in range). -/
def getNode (grid : List (List Node)) (p : Pos) : Node :=
  ((grid[p.1]?.getD [])[p.2]?).getD default

/-- Assignment to grid[r][c]. -/
def setNode (grid : List (List Node)) (p : Pos) (n : Node) : List (List Node) :=
  grid.set p.1 ((grid[p.1]?.getD []).set p.2 n)

/-- The neighbor positions Node.update_neighbors appends, in source order
(up, down, left, right), for a node at position p in a grid with the given
barrier predicate and total_rows rows. -/
def nbrsOf (total_rows : Nat) (isB : Pos → Bool) (p : Pos) : List Pos :=
  (if 0 < p.1 ∧ ¬ isB (p.1 - 1, p.2) then [(p.1 - 1, p.2)] else []) ++
  (if p.1 < total_rows - 1 ∧ ¬ isB (p.1 + 1, p.2) then [(p.1 + 1, p.2)] else []) ++
  (if 0 < p.2 ∧ ¬ isB (p.1, p.2 - 1) then [(p.1, p.2 - 1)] else []) ++
  (if p.2 < total_rows - 1 ∧ ¬ isB (p.1, p.2 + 1) then [(p.1, p.2 + 1)] else [])

/-- The barrier predicate read by Node.update_neighbors: is_barrier of the
node found in the grid. -/
def isBarrierAt (grid : List (List Node)) (p : Pos) : Bool :=
  (getNode grid p).is_barrier

/-- Node.update_neighbors: the list of positions appended for node n
(the method appends to the existing list; callers model the append). -/
def update_neighbors (grid : List (List Node)) (n : Node) : List Pos :=
  nbrsOf n.total_rows (isBarrierAt grid) (n.row, n.column)

/-- Row-major list of the in-range positions of a grid. -/
def gridIndices (grid : List (List Node)) : List Pos :=
  (List.range grid.length).flatMap fun r =>
    (List.range (grid[r]?.getD []).length).map fun c => (r, c)

/-- One step of the loop run when SPACE is pressed: reset the node unless
it is a barrier, the end or the start, then call update_neighbors on it
(which appends to its neighbor list). -/
def preRunStep (grid : List (List Node)) (p : Pos) : List (List Node) :=
  let n := getNode grid p
  let n1 := if ¬ n.is_barrier ∧ ¬ n.is_end ∧ ¬ n.is_start then n.reset else n
  let g1 := setNode grid p n1
  let n2 := { n1 with neighbors := n1.neighbors ++ update_neighbors g1 n1 }
  setNode g1 p n2

/-- The whole pre-run pass over the grid performed by main just before each
search: for every node, reset unless barrier/end/start, then update_neighbors. -/
def preRunReset (grid : List (List Node)) : List (List Node) :=
  (gridIndices grid).foldl preRunStep grid

/-- get_clicked_position: map pixel coordinates back to (row, column) by
integer division with node_width = surface_width // total_rows. -/
def get_clicked_position (coords : Pos) (total_rows surface_width : Nat) : Pos :=
  let node_width := surface_width / total_rows
  (coords.1 / node_width, coords.2 / node_width)

/-- A frontier element (f_score, count, node), the tuple format pushed on
the PriorityQueue by generate_path. -/
abbrev Entry := Nat × Nat × Pos

/-- The pair the PriorityQueue actually orders by: (f_score, count).  The
node component is never reached in a comparison because counts are unique
(Node.__lt__ exists only to make the comparison total and returns False). -/
def entryKey (e : Entry) : Nat × Nat := (e.1, e.2.1)

/-- Lexicographic comparison of (f_score, count) keys. -/
def keyLeB (a b : Nat × Nat) : Bool :=
  decide (a.1 < b.1) || (decide (a.1 = b.1) && decide (a.2 ≤ b.2))

/-- The minimum-key entry among e :: l, keeping the earlier one on ties. -/
def selMin (e : Entry) : List Entry → Entry
  | [] => e
  | x :: xs => if keyLeB (entryKey e) (entryKey x) then selMin e xs else selMin x xs

/-- PriorityQueue.get: the minimum entry of the queue, none when empty. -/
def queueMin (l : List Entry) : Option Entry :=
  match l with
  | [] => none
  | e :: es => some (selMin e es)

/-- What the PriorityQueue guarantees of the popped element: it is a
member of the queue and its (f_score, count) key is minimal.  queueMin is
one such selection; determinism of the whole run over any valid selection
is the content of the ordering claim. -/
def ValidChooser (choose : List Entry → Option Entry) : Prop :=
  ∀ q : List Entry, q ≠ [] → ∃ e, choose q = some e ∧ e ∈ q ∧
    ∀ x ∈ q, keyLeB (entryKey e) (entryKey x) = true

/-- The frontier bookkeeping invariant of a run: every count in the open
set is at most the insertion counter, and all counts are distinct. -/
def QInvFields (open_set : List Entry) (count : Nat) : Prop :=
  (∀ e ∈ open_set, e.2.1 ≤ count) ∧ (open_set.map fun e => e.2.1).Nodup

/-- The mutable state of one generate_path run.  popped records the order
in which nodes are taken off the frontier and relaxes counts the updates
of origin/g_score/f_score; both are observation fields the Python program
exhibits through drawing, added here so properties can mention them. -/
structure SearchState where
  open_set : List Entry
  open_set_hash : List Pos
  g_score : Pos → Option Nat
  f_score : Pos → Option Nat
  origin : Pos → Option Pos
  count : Nat
  colors : Pos → NodeColor
  popped : List Pos
  relaxes : Nat

/-- The state generate_path builds before its loop: count = 0, the single
entry (0, count, start) in the open set, start in the membership set,
g_score all infinity except g_score[start] = 0, f_score all infinity
except f_score[start] = manhattan_distance(start, end). -/
def initState (startP endP : Pos) (colors0 : Pos → NodeColor) : SearchState :=
  { open_set := [(0, 0, startP)]
    open_set_hash := [startP]
    g_score := upd (fun _ => none) startP (some 0)
    f_score := upd (fun _ => none) startP (some (manhattan_distance startP endP))
    origin := fun _ => none
    count := 0
    colors := colors0
    popped := []
    relaxes := 0 }

/-- The relaxation guard temp_g_score < g_score[neighbor], with the
default float("inf") on the right: everything beats infinity, nothing
beats a finite score it does not strictly undercut. -/
def betterB (temp : Nat) (gn : Option Nat) : Bool :=
  match gn with
  | none => true
  | some k => decide (temp < k)

/-- The dictionary updates of a successful relaxation of neighbor nP from
current node with finite score gc: origin[n] = current,
g_score[n] = gc + 1, f_score[n] = g_score[n] + manhattan(n, end). -/
def relaxSet (endP curP : Pos) (s : SearchState) (nP : Pos) (gc : Nat) : SearchState :=
  { s with
    origin := upd s.origin nP (some curP)
    g_score := upd s.g_score nP (some (gc + 1))
    f_score := upd s.f_score nP (some (gc + 1 + manhattan_distance nP endP))
    relaxes := s.relaxes + 1 }

/-- A successful relaxation of a neighbor that is not in the open set:
additionally count += 1, push (f_score[n], count, n), add n to the
membership set, and mark n open (green). -/
def relaxPush (endP curP : Pos) (s : SearchState) (nP : Pos) (gc : Nat) : SearchState :=
  { relaxSet endP curP s nP gc with
    count := s.count + 1
    open_set := s.open_set ++ [(gc + 1 + manhattan_distance nP endP, s.count + 1, nP)]
    open_set_hash := nP :: s.open_set_hash
    colors := upd s.colors nP NodeColor.green }

/-- One neighbor relaxation from the body of the for-loop of generate_path:
temp_g_score = g_score[current] + 1; if it beats g_score[neighbor], update
origin, g_score, f_score, and if the neighbor is not in the open set add
it with the next count and mark it open (green).  float("inf") arithmetic
is mirrored exactly: inf + 1 = inf compares below nothing, so a current
node with infinite g_score relaxes no one. -/
def relaxOne (endP curP : Pos) (s : SearchState) (nP : Pos) : SearchState :=
  match s.g_score curP with
  | none => s
  | some gc =>
    if betterB (gc + 1) (s.g_score nP) then
      if nP ∈ s.open_set_hash then relaxSet endP curP s nP gc
      else relaxPush endP curP s nP gc
    else s

/-- The for-loop over current_node.neighbors. -/
def relaxAll (nbrs : Pos → List Pos) (endP curP : Pos) (s : SearchState) : SearchState :=
  (nbrs curP).foldl (relaxOne endP curP) s

/-- The while-loop of reconstruct_path: follow origin from cur, marking
each predecessor found as path (purple).  Python recurses while origin has
an entry; the fuel bounds the walk (a run always supplies enough). -/
def reconWalk (origin : Pos → Option Pos) : Nat → Pos → (Pos → NodeColor) → (Pos → NodeColor)
  | 0, _, cols => cols
  | fuel + 1, cur, cols =>
    match origin cur with
    | none => cols
    | some p => reconWalk origin fuel p (upd cols p NodeColor.purple)

/-- reconstruct_path(draw, origin, end): walk origin from the end node and
mark every predecessor purple. -/
def reconstruct_path (origin : Pos → Option Pos) (endP : Pos)
    (cols : Pos → NodeColor) (fuel : Nat) : Pos → NodeColor :=
  reconWalk origin fuel endP cols

/-- The number of origin links followed from cur: the number of steps of
the reconstructed path. -/
def chainLen (origin : Pos → Option Pos) : Nat → Pos → Nat
  | 0, _ => 0
  | fuel + 1, cur =>
    match origin cur with
    | none => 0
    | some p => chainLen origin fuel p + 1

/-- How a run of generate_path ends: the end node was popped and the path
reconstructed (found); the frontier emptied (exhausted); the user pressed
Q or quit (cancelled); or the modelling fuel ran out (outOfFuel, never the
case with enough fuel). -/
inductive RunResult where
  | found (s : SearchState)
  | exhausted (s : SearchState)
  | cancelled (s : SearchState)
  | outOfFuel (s : SearchState)

/-- The state carried by a run result. -/
def RunResult.state : RunResult → SearchState
  | .found s => s
  | .exhausted s => s
  | .cancelled s => s
  | .outOfFuel s => s

/-- A numeric tag for the outcome constructor: 0 found, 1 exhausted,
2 cancelled, 3 outOfFuel. -/
def RunResult.tag : RunResult → Nat
  | .found _ => 0
  | .exhausted _ => 1
  | .cancelled _ => 2
  | .outOfFuel _ => 3

/-- open_set.get() plus open_set_hash.remove(current_node): entry e leaves
the frontier and its node is appended to the pop (visitation) record. -/
def popState (s : SearchState) (e : Entry) : SearchState :=
  { s with
    open_set := s.open_set.erase e
    open_set_hash := s.open_set_hash.erase e.2.2
    popped := s.popped ++ [e.2.2] }

/-- The end-node branch: reconstruct the path from the origin map, then
end_node.make_end() and start_node.make_start(). -/
def foundState (startP endP : Pos) (s1 : SearchState) : SearchState :=
  { s1 with
    colors :=
      upd (upd (reconstruct_path s1.origin endP s1.colors (s1.count + 1))
        endP NodeColor.turquoise) startP NodeColor.orange }

/-- The tail of a non-end iteration: relax all neighbors of the popped
node, make it closed unless it is the start node, and repaint the end
node (the loop does end_node.make_end() every iteration). -/
def stepState (nbrs : Pos → List Pos) (startP endP : Pos) (s1 : SearchState)
    (curP : Pos) : SearchState :=
  let s2 := relaxAll nbrs endP curP s1
  let s3 : SearchState :=
    if curP = startP then s2
    else { s2 with colors := upd s2.colors curP NodeColor.red }
  { s3 with colors := upd s3.colors endP NodeColor.turquoise }

/-- The loop of generate_path, parameterised by the frontier selection
function (choose); the PriorityQueue behaviour is queueMin, and any choose
that returns a minimal entry is observationally equal (proved below).
Iteration t: stop on empty frontier (exhausted); stop if the cancel signal
is set (the pygame event check, cancelled); pop the minimum (f, count)
entry and remove its node from the membership set; if it is the end node,
reconstruct the path, restore the end and start colours and stop (found);
otherwise relax all neighbors, close the node unless it is the start, and
repaint the end node. -/
def runWith (choose : List Entry → Option Entry) (nbrs : Pos → List Pos)
    (startP endP : Pos) (cancel : Nat → Bool) :
    Nat → Nat → SearchState → RunResult
  | 0, _, s => .outOfFuel s
  | fuel + 1, t, s =>
    if s.open_set = [] then .exhausted s
    else if cancel t then .cancelled s
    else
      match choose s.open_set with
      | none => .exhausted s
      | some e =>
        if e.2.2 = endP then .found (foundState startP endP (popState s e))
        else
          runWith choose nbrs startP endP cancel fuel (t + 1)
            (stepState nbrs startP endP (popState s e) e.2.2)

/-- generate_path: run the loop with the PriorityQueue selection from the
initial state. -/
def generate_path (nbrs : Pos → List Pos) (startP endP : Pos)
    (cancel : Nat → Bool) (colors0 : Pos → NodeColor) (fuel : Nat) : RunResult :=
  runWith queueMin nbrs startP endP cancel fuel 0 (initState startP endP colors0)

/-- Row-major list of all positions of an N x N grid. -/
def gridPositions (numRows : Nat) : List Pos :=
  (List.range numRows).flatMap fun r => (List.range numRows).map fun c => (r, c)

/-- The cancel signal of a run in which the user never presses Q or quits. -/
def noCancel : Nat → Bool := fun _ => false

/-- The barrier predicate of a grid with no barrier cells. -/
def noBarrier : Pos → Bool := fun _ => false

/-- p is a position of the N x N grid. -/
def validPos (numRows : Nat) (p : Pos) : Prop :=
  p.1 < numRows ∧ p.2 < numRows

/-- p lies on some Manhattan-shortest path from start to end (the rectangle
spanned by the two cells) and inside the grid.  A* on the barrier-free grid
only ever pops such cells. -/
def onRect (numRows : Nat) (startP endP p : Pos) : Prop :=
  validPos numRows p ∧
  manhattan_distance startP p + manhattan_distance p endP =
    manhattan_distance startP endP

/-- Number of grid cells never discovered (g_score still infinite): first
component of the termination measure of the loop. -/
def mUndisc (numRows : Nat) (s : SearchState) : Nat :=
  (gridPositions numRows).countP fun p => (s.g_score p).isNone

/-- Sum of the finite g_score values over the grid: second component of the
termination measure (a relaxation of an already discovered cell strictly
lowers it). -/
def mGsum (numRows : Nat) (s : SearchState) : Nat :=
  ((gridPositions numRows).map fun p => (s.g_score p).getD 0).sum

/-- Progress made by the relaxation pass: either nothing happened, or a
cell was discovered for the first time, or an already finite g_score
strictly decreased. -/
def relaxMeasureLt (numRows : Nat) (s' s : SearchState) : Prop :=
  s' = s ∨ mUndisc numRows s' < mUndisc numRows s ∨
    (mUndisc numRows s' = mUndisc numRows s ∧ mGsum numRows s' < mGsum numRows s)

/-- Reachability from the start along the neighbor lists the engine uses:
a sequence of 4-adjacent non-barrier cells. -/
inductive Reach (numRows : Nat) (isB : Pos → Bool) (startP : Pos) : Pos → Prop
  | refl : Reach numRows isB startP startP
  | step {u v : Pos} : Reach numRows isB startP u → v ∈ nbrsOf numRows isB u →
      Reach numRows isB startP v

/-- The invariant a run of generate_path maintains on a grid with barrier
predicate isB, tying the frontier, the membership set, the score maps, the
pop record and the colours together.  The ex parameter names the node
whose relaxation pass is currently in progress (its neighbor and closing
obligations are deferred); between iterations ex = none. -/
structure SInv (numRows : Nat) (isB : Pos → Bool) (startP endP : Pos)
    (colors0 : Pos → NodeColor) (ex : Option Pos) (s : SearchState) : Prop where
  hashPerm : s.open_set_hash.Perm (s.open_set.map fun e => e.2.2)
  nodesNodup : (s.open_set.map fun e => e.2.2).Nodup
  gstart : s.g_score startP = some 0
  reachDisc : ∀ p, s.g_score p ≠ none → Reach numRows isB startP p
  queueDisc : ∀ e ∈ s.open_set, s.g_score e.2.2 ≠ none
  poppedDisc : ∀ p ∈ s.popped, s.g_score p ≠ none
  discLoc : ∀ p, s.g_score p ≠ none → p ∈ s.open_set_hash ∨ p ∈ s.popped
  poppedNbrs : ∀ p ∈ s.popped, some p ≠ ex →
    ∀ v ∈ nbrsOf numRows isB p, s.g_score v ≠ none
  validQ : ∀ e ∈ s.open_set, validPos numRows e.2.2
  colorsPopped : ∀ p, p ≠ startP → p ≠ endP → some p ≠ ex → p ∈ s.popped →
    p ∉ s.open_set_hash → s.colors p = NodeColor.red
  colorsUntouched : ∀ p, p ∉ s.open_set_hash → p ∉ s.popped → p ≠ endP →
    s.colors p = colors0 p
  colorsStart : s.colors startP = colors0 startP
  colorsEnd : s.colors endP = colors0 endP ∨ s.colors endP = NodeColor.turquoise

/-- The optimality invariant a run of generate_path maintains on the
barrier-free grid, strong enough to show the end node is popped with an
optimal g_score and an origin chain of exactly Manhattan length.  d p
abbreviates manhattan_distance startP p and h p abbreviates
manhattan_distance p endP below; onRect p says d p + h p = d endP.  The ex
parameter names the node whose relaxation pass is in progress (its
neighbor-discovery obligation is deferred); between iterations ex = none. -/
structure AInv (numRows : Nat) (startP endP : Pos) (ex : Option Pos)
    (s : SearchState) : Prop where
  hashNodes : s.open_set_hash.Perm (s.open_set.map fun e => e.2.2)
  queueNodesNodup : (s.open_set.map fun e => e.2.2).Nodup
  countsNodup : (s.open_set.map fun e => e.2.1).Nodup
  countsLe : ∀ e ∈ s.open_set, e.2.1 ≤ s.count
  gScoreStart : s.g_score startP = some 0
  originStart : s.origin startP = none
  gLB : ∀ p k, s.g_score p = some k →
    validPos numRows p ∧ manhattan_distance startP p ≤ k
  rectOpt : ∀ p k, onRect numRows startP endP p → s.g_score p = some k →
    k = manhattan_distance startP p
  entryBound : ∀ e ∈ s.open_set, e.2.2 ≠ startP →
    manhattan_distance startP e.2.2 + manhattan_distance e.2.2 endP ≤ e.1 ∧
    ∃ k, s.g_score e.2.2 = some k ∧ k + manhattan_distance e.2.2 endP ≤ e.1
  startEntry : ∀ e ∈ s.open_set, e.2.2 = startP → e = (0, 0, startP) ∧ s.popped = []
  startState : s.popped = [] → s.open_set = [(0, 0, startP)]
  startPopped : s.popped ≠ [] → startP ∈ s.popped
  poppedRect : ∀ p ∈ s.popped, onRect numRows startP endP p ∧
    s.g_score p = some (manhattan_distance startP p)
  poppedNodup : s.popped.Nodup
  poppedNotInQueue : ∀ p ∈ s.popped, p ∉ s.open_set.map fun e => e.2.2
  endNotPopped : endP ∉ s.popped
  discELe : ∀ w, onRect numRows startP endP w →
    (∃ p ∈ s.popped, manhattan_distance startP w ≤ manhattan_distance startP p) →
    s.g_score w ≠ none
  discIn : ∀ v, s.g_score v ≠ none →
    v ∈ s.popped ∨ v ∈ s.open_set.map fun e => e.2.2
  rectEntryKey : ∀ e ∈ s.open_set, e.2.2 ≠ startP →
    onRect numRows startP endP e.2.2 → e.1 = manhattan_distance startP endP
  countOrder : ∀ e1 ∈ s.open_set, ∀ e2 ∈ s.open_set,
    e1.2.2 ≠ startP → e2.2.2 ≠ startP →
    onRect numRows startP endP e1.2.2 → onRect numRows startP endP e2.2.2 →
    manhattan_distance startP e1.2.2 < manhattan_distance startP e2.2.2 →
    e1.2.1 < e2.2.1
  depthLe : ∀ p ∈ s.popped, ∀ e ∈ s.open_set, e.2.2 ≠ startP →
    onRect numRows startP endP e.2.2 →
    manhattan_distance startP p ≤ manhattan_distance startP e.2.2
  originChain : ∀ v, onRect numRows startP endP v → v ≠ startP →
    s.g_score v ≠ none → ∃ x, s.origin v = some x ∧ x ∈ s.popped ∧
      manhattan_distance startP x + 1 = manhattan_distance startP v
  poppedNbrsDisc : ∀ p ∈ s.popped, some p ≠ ex →
    ∀ v ∈ nbrsOf numRows noBarrier p, s.g_score v ≠ none

/-- The Python exception generate_path raises when start or end is None:
None.get_pos() inside the first manhattan_distance call. -/
inductive PyErr where
  | attributeError
deriving DecidableEq, Repr

/-- What pressing SPACE does in main: reset every non-barrier non-end
non-start node and recompute neighbor lists (preRunReset), then call
generate_path with the current start and end references, which may be None;
with a None reference the call raises AttributeError after the grid pass
already mutated the nodes.  Returns the mutated grid together with the
outcome. -/
def beginSearch (grid : List (List Node)) (startN endN : Option Pos)
    (cancel : Nat → Bool) (fuel : Nat) :
    List (List Node) × Except PyErr RunResult :=
  let grid1 := preRunReset grid
  match startN, endN with
  | some sp, some ep =>
    (grid1, .ok (runWith queueMin (fun p => (getNode grid1 p).neighbors) sp ep
      cancel fuel 0 (initState sp ep (fun p => (getNode grid1 p).color))))
  | _, _ => (grid1, .error PyErr.attributeError)

/-- The list of predecessors reconstruct_path walks through (and marks),
ordered from the one before the end node back to the start node. -/
def reconChain (origin : Pos → Option Pos) : Nat → Pos → List Pos
  | 0, _ => []
  | fuel + 1, cur =>
    match origin cur with
    | none => []
    | some p => p :: reconChain origin fuel p

/-- What one pre-run pass does to a node colour: barrier, end and start
colours stay, everything else becomes white. -/
def colorAfter (c : NodeColor) : NodeColor :=
  if c ≠ NodeColor.black ∧ c ≠ NodeColor.turquoise ∧ c ≠ NodeColor.orange then
    NodeColor.white
  else c

/-! Concrete instances used by counterexamples and witnesses. -/

/-- A 2 x 2 grid whose cell (0,0) holds the start node. -/
def gridStart22 : List (List Node) :=
  setNode (create_grid 2 10) (0, 0) ((getNode (create_grid 2 10) (0, 0)).make_start)

/-- A 2 x 2 grid with a stale path marking at (0,1), as left by a previous
run; start and end references are not set. -/
def gridStale22 : List (List Node) :=
  setNode (create_grid 2 10) (0, 1) ((getNode (create_grid 2 10) (0, 1)).make_path)

/-- An origin map sending (0,1) to the start cell (0,0), as produced by a
one-step search. -/
def originPair : Pos → Option Pos :=
  fun p => if p = (0, 1) then some ((0 : Nat), (0 : Nat)) else none

/-- Colours with the start cell (0,0) orange and the rest white. -/
def colorsPair : Pos → NodeColor :=
  fun p => if p = (0, 0) then NodeColor.orange else NodeColor.white

/-- The barrier predicate of the 3 x 3 wall scenario: a full vertical wall
in column 1 separating (0,0) from (0,2). -/
def wallBarrier : Pos → Bool :=
  fun p => p = (0, 1) ∨ p = (1, 1) ∨ p = (2, 1)

/-- Initial colours of the 3 x 3 wall scenario. -/
def wallColors : Pos → NodeColor :=
  fun p =>
    if p = (0, 0) then NodeColor.orange
    else if p = (0, 2) then NodeColor.turquoise
    else if wallBarrier p then NodeColor.black
    else NodeColor.white

/-- In-range positions of a (possibly ragged) grid. -/
def inBounds (grid : List (List Node)) (p : Pos) : Prop :=
  p.1 < grid.length ∧ p.2 < (grid[p.1]?.getD []).length

/-! Theorems. -/

theorem length_setNode (g : List (List Node)) (p : Pos) (n : Node) :
    (setNode g p n).length = g.length := by
  simp [setNode]

theorem row_length_setNode (g : List (List Node)) (p : Pos) (n : Node) (r : Nat) :
    ((setNode g p n)[r]?.getD []).length = (g[r]?.getD []).length := by
  by_cases h : p.1 = r
  · subst h
    by_cases hl : p.1 < g.length
    · rw [setNode, List.getElem?_set_self hl]
      simp
    · rw [setNode, List.set_eq_of_length_le (Nat.le_of_not_lt hl)]
  · rw [setNode, List.getElem?_set_ne h]

theorem getNode_setNode_other (g : List (List Node)) {p q : Pos} (n : Node)
    (h : q ≠ p) : getNode (setNode g p n) q = getNode g q := by
  by_cases h1 : p.1 = q.1
  · have h2 : p.2 ≠ q.2 := by
      intro h2
      exact h (Prod.ext h1.symm h2.symm)
    unfold getNode setNode
    rw [← h1]
    by_cases hl : p.1 < g.length
    · rw [List.getElem?_set_self hl]
      simp only [Option.getD_some]
      rw [List.getElem?_set_ne h2]
    · rw [List.set_eq_of_length_le (Nat.le_of_not_lt hl)]
  · unfold getNode setNode
    rw [List.getElem?_set_ne h1]

theorem getNode_setNode_same (g : List (List Node)) (p : Pos) (n : Node)
    (h : inBounds g p) : getNode (setNode g p n) p = n := by
  unfold getNode setNode
  rw [List.getElem?_set_self h.1]
  simp only [Option.getD_some]
  rw [List.getElem?_set_self h.2]
  rfl

theorem preRunStep_length (g : List (List Node)) (p : Pos) :
    (preRunStep g p).length = g.length := by
  unfold preRunStep
  simp only [length_setNode]

theorem preRunStep_row_length (g : List (List Node)) (p : Pos) (r : Nat) :
    ((preRunStep g p)[r]?.getD []).length = (g[r]?.getD []).length := by
  unfold preRunStep
  simp only [row_length_setNode]

theorem inBounds_preRunStep (g : List (List Node)) (p q : Pos) :
    inBounds (preRunStep g p) q ↔ inBounds g q := by
  unfold inBounds
  rw [preRunStep_length, preRunStep_row_length]

theorem getNode_preRunStep_other (g : List (List Node)) {p q : Pos} (h : q ≠ p) :
    getNode (preRunStep g p) q = getNode g q := by
  unfold preRunStep
  simp only []
  rw [getNode_setNode_other _ _ h, getNode_setNode_other _ _ h]

theorem color_preRunStep_same (g : List (List Node)) (p : Pos) (h : inBounds g p) :
    (getNode (preRunStep g p) p).color = colorAfter (getNode g p).color := by
  have hb : inBounds (setNode g p
      (if ¬ (getNode g p).is_barrier ∧ ¬ (getNode g p).is_end ∧ ¬ (getNode g p).is_start
        then (getNode g p).reset else getNode g p)) p := by
    refine ⟨?_, ?_⟩
    · rw [length_setNode]; exact h.1
    · rw [row_length_setNode]; exact h.2
  unfold preRunStep
  simp only []
  rw [getNode_setNode_same _ _ _ hb]
  by_cases hc : ¬ (getNode g p).is_barrier ∧ ¬ (getNode g p).is_end ∧ ¬ (getNode g p).is_start
  · rw [if_pos hc]
    have : colorAfter (getNode g p).color = NodeColor.white := by
      rw [colorAfter, if_pos]
      refine ⟨?_, ?_, ?_⟩
      · simpa [Node.is_barrier] using hc.1
      · simpa [Node.is_end] using hc.2.1
      · simpa [Node.is_start] using hc.2.2
    rw [this]
    rfl
  · rw [if_neg hc]
    have : colorAfter (getNode g p).color = (getNode g p).color := by
      rw [colorAfter, if_neg]
      intro hcc
      exact hc ⟨by simp [Node.is_barrier, hcc.1], by simp [Node.is_end, hcc.2.1],
        by simp [Node.is_start, hcc.2.2]⟩
    rw [this]

theorem foldl_preRunStep_length (l : List Pos) :
    ∀ g : List (List Node), (l.foldl preRunStep g).length = g.length := by
  induction l with
  | nil => intro g; rfl
  | cons a rest ih =>
    intro g
    rw [List.foldl_cons, ih, preRunStep_length]

theorem foldl_preRunStep_row_length (l : List Pos) :
    ∀ (g : List (List Node)) (r : Nat),
      ((l.foldl preRunStep g)[r]?.getD []).length = (g[r]?.getD []).length := by
  induction l with
  | nil => intro g r; rfl
  | cons a rest ih =>
    intro g r
    rw [List.foldl_cons, ih, preRunStep_row_length]

theorem getNode_foldl_preRunStep_other (l : List Pos) :
    ∀ (g : List (List Node)) {q : Pos}, q ∉ l →
      getNode (l.foldl preRunStep g) q = getNode g q := by
  induction l with
  | nil => intro g q _; rfl
  | cons a rest ih =>
    intro g q hq
    rw [List.foldl_cons, ih _ (fun hm => hq (List.mem_cons_of_mem _ hm)),
      getNode_preRunStep_other _ (fun he => hq (by rw [he]; exact List.mem_cons_self a rest))]

theorem color_foldl_preRunStep (l : List Pos) :
    ∀ g : List (List Node), l.Nodup → (∀ x ∈ l, inBounds g x) →
      ∀ p ∈ l, (getNode (l.foldl preRunStep g) p).color = colorAfter (getNode g p).color := by
  induction l with
  | nil => intro g _ _ p hp; cases hp
  | cons a rest ih =>
    intro g hnd hb p hp
    rw [List.foldl_cons]
    have hna : a ∉ rest := (List.nodup_cons.mp hnd).1
    rcases List.mem_cons.mp hp with rfl | hpr
    · rw [getNode_foldl_preRunStep_other rest _ hna]
      exact color_preRunStep_same g p (hb p (List.mem_cons_self p rest))
    · have hne : p ≠ a := fun he => hna (he ▸ hpr)
      rw [ih (preRunStep g a) (List.nodup_cons.mp hnd).2
        (fun x hx => (inBounds_preRunStep g a x).mpr (hb x (List.mem_cons_of_mem _ hx)))
        p hpr, getNode_preRunStep_other _ hne]

theorem mem_gridIndices {g : List (List Node)} {p : Pos} :
    p ∈ gridIndices g ↔ inBounds g p := by
  unfold gridIndices inBounds
  simp only [List.mem_flatMap, List.mem_map, List.mem_range]
  constructor
  · rintro ⟨r, hr, c, hc, rfl⟩
    exact ⟨hr, hc⟩
  · rintro ⟨h1, h2⟩
    exact ⟨p.1, h1, p.2, h2, rfl⟩

theorem nodup_gridIndices (g : List (List Node)) : (gridIndices g).Nodup := by
  unfold gridIndices
  refine List.nodup_flatMap.mpr ⟨?_, ?_⟩
  · intro r _
    refine List.Nodup.map ?_ (List.nodup_range _)
    intro a b hab
    cases hab
    rfl
  · refine List.Pairwise.imp ?_ (List.nodup_range g.length)
    intro a b hab x hxa hxb
    simp only [List.mem_map, List.mem_range] at hxa hxb
    obtain ⟨c1, _, rfl⟩ := hxa
    obtain ⟨c2, _, hx2⟩ := hxb
    cases hx2
    exact hab rfl

theorem gridIndices_congr {g1 g2 : List (List Node)} (h1 : g1.length = g2.length)
    (h2 : ∀ r : Nat, (g1[r]?.getD []).length = (g2[r]?.getD []).length) :
    gridIndices g1 = gridIndices g2 := by
  unfold gridIndices
  rw [h1]
  exact List.flatMap_congr fun r _ => by rw [h2 r]

theorem gridIndices_preRunReset (g : List (List Node)) :
    gridIndices (preRunReset g) = gridIndices g := by
  exact gridIndices_congr (foldl_preRunStep_length _ g) (foldl_preRunStep_row_length _ g)

theorem colorAfter_idem (c : NodeColor) : colorAfter (colorAfter c) = colorAfter c := by
  cases c <;> rfl

theorem color_preRunReset (g : List (List Node)) (p : Pos) (hp : p ∈ gridIndices g) :
    (getNode (preRunReset g) p).color = colorAfter (getNode g p).color :=
  color_foldl_preRunStep (gridIndices g) g (nodup_gridIndices g)
    (fun x hx => mem_gridIndices.mp hx) p hp

/-- C7 amended: the pre-run reset is idempotent on every cell's state tag
(colour), and never alters the colour of a Barrier, Start or End cell; but
it is not idempotent on whole cells, because each application appends to
the neighbor lists of the Barrier/Start/End cells it skips. -/
theorem claim_C7 (grid : List (List Node)) (p : Pos) (hp : p ∈ gridIndices grid) :
    (getNode (preRunReset (preRunReset grid)) p).color =
      (getNode (preRunReset grid) p).color ∧
    ((getNode grid p).color = NodeColor.black ∨ (getNode grid p).color = NodeColor.orange ∨
      (getNode grid p).color = NodeColor.turquoise →
      (getNode (preRunReset grid) p).color = (getNode grid p).color) := by
  constructor
  · rw [color_preRunReset (preRunReset grid) p ((gridIndices_preRunReset grid).symm ▸ hp),
      color_preRunReset grid p hp, colorAfter_idem]
  · intro hs
    rw [color_preRunReset grid p hp]
    rcases hs with h | h | h <;> rw [h] <;> rfl

/-- C7 counterexample: on a 2 x 2 grid with the start at (0,0), two pre-run
passes differ from one (the start node's neighbor list is appended to by
each pass), so the operation is not idempotent and alters the Start cell. -/
theorem claim_C7_counterexample :
    preRunReset (preRunReset gridStart22) ≠ preRunReset gridStart22 ∧
    (getNode gridStart22 (0, 0)).color = NodeColor.orange ∧
    (getNode (preRunReset gridStart22) (0, 0)).neighbors = [(1, 0), (0, 1)] ∧
    (getNode (preRunReset (preRunReset gridStart22)) (0, 0)).neighbors =
      [(1, 0), (0, 1), (1, 0), (0, 1)] := by
  refine ⟨by decide, rfl, rfl, rfl⟩

/-- C7 witness: colour idempotence instantiated on the 2 x 2 start grid. -/
theorem claim_C7_witness :
    (getNode (preRunReset (preRunReset gridStart22)) (0, 0)).color =
      (getNode (preRunReset gridStart22) (0, 0)).color :=
  (claim_C7 gridStart22 (0, 0) (by decide)).1

/-! Determinism of the frontier (C3). -/

theorem keyLeB_refl (a : Nat × Nat) : keyLeB a a = true := by
  simp [keyLeB]

theorem keyLeB_total (a b : Nat × Nat) : keyLeB a b = true ∨ keyLeB b a = true := by
  unfold keyLeB
  simp only [Bool.or_eq_true, Bool.and_eq_true, decide_eq_true_eq]
  omega

theorem keyLeB_antisymm {a b : Nat × Nat} (h1 : keyLeB a b = true)
    (h2 : keyLeB b a = true) : a = b := by
  unfold keyLeB at h1 h2
  simp only [Bool.or_eq_true, Bool.and_eq_true, decide_eq_true_eq] at h1 h2
  refine Prod.ext ?_ ?_ <;> omega

theorem keyLeB_trans {a b c : Nat × Nat} (h1 : keyLeB a b = true)
    (h2 : keyLeB b c = true) : keyLeB a c = true := by
  unfold keyLeB at h1 h2 ⊢
  simp only [Bool.or_eq_true, Bool.and_eq_true, decide_eq_true_eq] at h1 h2 ⊢
  omega

theorem selMin_mem (l : List Entry) : ∀ e, selMin e l ∈ e :: l := by
  induction l with
  | nil => intro e; exact List.mem_cons_self e []
  | cons x xs ih =>
    intro e
    rw [selMin]
    by_cases h : keyLeB (entryKey e) (entryKey x) = true
    · rw [if_pos h]
      rcases List.mem_cons.mp (ih e) with he | hm
      · rw [he]; exact List.mem_cons_self e _
      · exact List.mem_cons_of_mem _ (List.mem_cons_of_mem _ hm)
    · rw [if_neg h]
      exact List.mem_cons_of_mem _ (ih x)

theorem selMin_le (l : List Entry) :
    ∀ e, ∀ x ∈ e :: l, keyLeB (entryKey (selMin e l)) (entryKey x) = true := by
  induction l with
  | nil =>
    intro e x hx
    rcases List.mem_cons.mp hx with h | hm
    · rw [h]; exact keyLeB_refl _
    · cases hm
  | cons y ys ih =>
    intro e x hx
    rw [selMin]
    by_cases h : keyLeB (entryKey e) (entryKey y) = true
    · rw [if_pos h]
      rcases List.mem_cons.mp hx with h1 | hm
      · rw [h1]
        exact ih e e (List.mem_cons_self e ys)
      · rcases List.mem_cons.mp hm with h2 | hm2
        · rw [h2]
          exact keyLeB_trans (ih e e (List.mem_cons_self e ys)) h
        · exact ih e x (List.mem_cons_of_mem e hm2)
    · rw [if_neg h]
      have hy : keyLeB (entryKey y) (entryKey e) = true :=
        (keyLeB_total _ _).resolve_left h
      rcases List.mem_cons.mp hx with h1 | hm
      · rw [h1]
        exact keyLeB_trans (ih y y (List.mem_cons_self y ys)) hy
      · rcases List.mem_cons.mp hm with h2 | hm2
        · rw [h2]
          exact ih y y (List.mem_cons_self y ys)
        · exact ih y x (List.mem_cons_of_mem y hm2)

theorem queueMin_valid : ValidChooser queueMin := by
  intro q hq
  cases q with
  | nil => exact absurd rfl hq
  | cons e es =>
    exact ⟨selMin e es, rfl, selMin_mem es e, fun x hx => selMin_le es e x hx⟩

theorem min_entry_unique {q : List Entry} (hnd : (q.map fun e => e.2.1).Nodup)
    {e1 e2 : Entry} (m1 : e1 ∈ q)
    (l1 : ∀ x ∈ q, keyLeB (entryKey e1) (entryKey x) = true) (m2 : e2 ∈ q)
    (l2 : ∀ x ∈ q, keyLeB (entryKey e2) (entryKey x) = true) : e1 = e2 := by
  have hk : entryKey e1 = entryKey e2 := keyLeB_antisymm (l1 e2 m2) (l2 e1 m1)
  have hc : e1.2.1 = e2.2.1 := congrArg Prod.snd hk
  exact List.inj_on_of_nodup_map hnd m1 m2 hc

theorem relaxOne_none {endP curP : Pos} {s : SearchState} (nP : Pos)
    (hg : s.g_score curP = none) : relaxOne endP curP s nP = s := by
  rw [relaxOne, hg]

theorem relaxOne_stay {endP curP : Pos} {s : SearchState} {gc : Nat} {nP : Pos}
    (hg : s.g_score curP = some gc) (hb : betterB (gc + 1) (s.g_score nP) = false) :
    relaxOne endP curP s nP = s := by
  rw [relaxOne, hg]
  simp only [hb, Bool.false_eq_true, if_false]

theorem relaxOne_set {endP curP : Pos} {s : SearchState} {gc : Nat} {nP : Pos}
    (hg : s.g_score curP = some gc) (hb : betterB (gc + 1) (s.g_score nP) = true)
    (hin : nP ∈ s.open_set_hash) :
    relaxOne endP curP s nP = relaxSet endP curP s nP gc := by
  rw [relaxOne, hg]
  simp only [hb, if_true, if_pos hin]

theorem relaxOne_push {endP curP : Pos} {s : SearchState} {gc : Nat} {nP : Pos}
    (hg : s.g_score curP = some gc) (hb : betterB (gc + 1) (s.g_score nP) = true)
    (hin : nP ∉ s.open_set_hash) :
    relaxOne endP curP s nP = relaxPush endP curP s nP gc := by
  rw [relaxOne, hg]
  simp only [hb, if_true, if_neg hin]

theorem betterB_true {temp : Nat} {gn : Option Nat} (hb : betterB temp gn = true) :
    gn = none ∨ ∃ k, gn = some k ∧ temp < k := by
  cases gn with
  | none => exact Or.inl rfl
  | some k =>
    refine Or.inr ⟨k, rfl, ?_⟩
    simpa [betterB] using hb

theorem betterB_of_none {temp : Nat} {gn : Option Nat} (h : gn = none) :
    betterB temp gn = true := by
  rw [h]; rfl

theorem qinvFields_relaxOne (endP curP : Pos) {s : SearchState}
    (h : QInvFields s.open_set s.count) (nP : Pos) :
    QInvFields (relaxOne endP curP s nP).open_set (relaxOne endP curP s nP).count := by
  cases hg : s.g_score curP with
  | none => rw [relaxOne_none nP hg]; exact h
  | some gc =>
    cases hb : betterB (gc + 1) (s.g_score nP) with
    | false => rw [relaxOne_stay hg hb]; exact h
    | true =>
      by_cases hin : nP ∈ s.open_set_hash
      · rw [relaxOne_set hg hb hin]; exact h
      · rw [relaxOne_push hg hb hin]
        refine ⟨?_, ?_⟩
        · intro e he
          have he2 : e ∈ s.open_set ++
              [(gc + 1 + manhattan_distance nP endP, s.count + 1, nP)] := he
          rcases List.mem_append.mp he2 with hm | hm
          · show e.2.1 ≤ s.count + 1
            exact Nat.le_succ_of_le (h.1 e hm)
          · have he3 : e = (gc + 1 + manhattan_distance nP endP, s.count + 1, nP) :=
              List.mem_singleton.mp hm
            show e.2.1 ≤ s.count + 1
            rw [he3]
        · show ((s.open_set ++ [(gc + 1 + manhattan_distance nP endP, s.count + 1, nP)]).map
            fun e => e.2.1).Nodup
          rw [List.map_append]
          refine List.nodup_append.mpr ⟨h.2, List.nodup_singleton _, ?_⟩
          intro c hc1 hc2
          obtain ⟨e, he, hce⟩ := List.mem_map.mp hc1
          have hc2b : c = s.count + 1 := List.mem_singleton.mp hc2
          have hce2 : e.2.1 = c := hce
          have hle : e.2.1 ≤ s.count := h.1 e he
          omega

theorem qinvFields_relaxAll (nbrs : Pos → List Pos) (endP curP : Pos)
    {s : SearchState} (h : QInvFields s.open_set s.count) :
    QInvFields (relaxAll nbrs endP curP s).open_set (relaxAll nbrs endP curP s).count := by
  unfold relaxAll
  generalize nbrs curP = l
  induction l generalizing s with
  | nil => exact h
  | cons a rest ih => exact ih (qinvFields_relaxOne endP curP h a)

theorem qinvFields_erase {open_set : List Entry} {count : Nat}
    (h : QInvFields open_set count) (e : Entry) :
    QInvFields (open_set.erase e) count := by
  refine ⟨fun x hx => h.1 x (List.mem_of_mem_erase hx), ?_⟩
  exact List.Nodup.sublist (List.Sublist.map _ (List.erase_sublist _ _)) h.2

theorem runWith_zero (choose : List Entry → Option Entry) (nbrs : Pos → List Pos)
    (startP endP : Pos) (cancel : Nat → Bool) (t : Nat) (s : SearchState) :
    runWith choose nbrs startP endP cancel 0 t s = .outOfFuel s := rfl

theorem runWith_empty (choose : List Entry → Option Entry) (nbrs : Pos → List Pos)
    (startP endP : Pos) (cancel : Nat → Bool) (f t : Nat) {s : SearchState}
    (he : s.open_set = []) :
    runWith choose nbrs startP endP cancel (f + 1) t s = .exhausted s := by
  rw [runWith, if_pos he]

theorem runWith_cancel (choose : List Entry → Option Entry) (nbrs : Pos → List Pos)
    (startP endP : Pos) {cancel : Nat → Bool} (f t : Nat) {s : SearchState}
    (he : ¬ s.open_set = []) (hc : cancel t = true) :
    runWith choose nbrs startP endP cancel (f + 1) t s = .cancelled s := by
  rw [runWith, if_neg he, if_pos hc]

theorem runWith_succ {choose : List Entry → Option Entry} (nbrs : Pos → List Pos)
    (startP endP : Pos) {cancel : Nat → Bool} (f t : Nat) {s : SearchState} {e : Entry}
    (he : ¬ s.open_set = []) (hc : cancel t = false)
    (hch : choose s.open_set = some e) :
    runWith choose nbrs startP endP cancel (f + 1) t s =
      if e.2.2 = endP then .found (foundState startP endP (popState s e))
      else
        runWith choose nbrs startP endP cancel f (t + 1)
          (stepState nbrs startP endP (popState s e) e.2.2) := by
  rw [runWith, if_neg he, if_neg (by rw [hc]; exact Bool.false_ne_true), hch]

theorem qinvFields_stepState (nbrs : Pos → List Pos) (startP endP : Pos)
    {s1 : SearchState} (h : QInvFields s1.open_set s1.count) (curP : Pos) :
    QInvFields (stepState nbrs startP endP s1 curP).open_set
      (stepState nbrs startP endP s1 curP).count := by
  unfold stepState
  have h2 := qinvFields_relaxAll nbrs endP curP h
  by_cases hsp : curP = startP
  · simp only [if_pos hsp]
    exact h2
  · simp only [if_neg hsp]
    exact h2

theorem qinvFields_popState {s : SearchState} (h : QInvFields s.open_set s.count)
    (e : Entry) : QInvFields (popState s e).open_set (popState s e).count :=
  qinvFields_erase h e

theorem runWith_chooser_eq {c1 c2 : List Entry → Option Entry}
    (h1 : ValidChooser c1) (h2 : ValidChooser c2) (nbrs : Pos → List Pos)
    (startP endP : Pos) (cancel : Nat → Bool) :
    ∀ (fuel t : Nat) (s : SearchState), QInvFields s.open_set s.count →
      runWith c1 nbrs startP endP cancel fuel t s =
        runWith c2 nbrs startP endP cancel fuel t s := by
  intro fuel
  induction fuel with
  | zero => intro t s _; rfl
  | succ f ih =>
    intro t s hq
    by_cases he : s.open_set = []
    · rw [runWith_empty c1 nbrs startP endP cancel f t he,
        runWith_empty c2 nbrs startP endP cancel f t he]
    · cases hc : cancel t with
      | true =>
        rw [runWith_cancel c1 nbrs startP endP f t he hc,
          runWith_cancel c2 nbrs startP endP f t he hc]
      | false =>
        obtain ⟨e1, hce1, hm1, hl1⟩ := h1 s.open_set he
        obtain ⟨e2, hce2, hm2, hl2⟩ := h2 s.open_set he
        have heq : e1 = e2 := min_entry_unique hq.2 hm1 hl1 hm2 hl2
        subst heq
        rw [runWith_succ nbrs startP endP f t he hc hce1,
          runWith_succ nbrs startP endP f t he hc hce2]
        by_cases hend : e1.2.2 = endP
        · rw [if_pos hend, if_pos hend]
        · rw [if_neg hend, if_neg hend]
          exact ih (t + 1) _
            (qinvFields_stepState nbrs startP endP (qinvFields_popState hq e1) e1.2.2)

/-- C3: two runs on the same grid are identical: with the frontier counts
pairwise distinct (an invariant of every run), any two valid frontier
selections pop the same (f_score, count)-minimal entry at every step, so
the whole run result, in particular the pop (visitation) order and the
final colour marking, is a function of the grid contents alone. -/
theorem claim_C3 {c1 c2 : List Entry → Option Entry}
    (h1 : ValidChooser c1) (h2 : ValidChooser c2) (nbrs : Pos → List Pos)
    (startP endP : Pos) (cancel : Nat → Bool) (colors0 : Pos → NodeColor)
    (fuel : Nat) :
    runWith c1 nbrs startP endP cancel fuel 0 (initState startP endP colors0) =
      runWith c2 nbrs startP endP cancel fuel 0 (initState startP endP colors0) ∧
    (runWith c1 nbrs startP endP cancel fuel 0 (initState startP endP colors0)).state.popped =
      (runWith c2 nbrs startP endP cancel fuel 0 (initState startP endP colors0)).state.popped ∧
    (runWith c1 nbrs startP endP cancel fuel 0 (initState startP endP colors0)).state.colors =
      (runWith c2 nbrs startP endP cancel fuel 0 (initState startP endP colors0)).state.colors := by
  have hq : QInvFields (initState startP endP colors0).open_set
      (initState startP endP colors0).count := by
    refine ⟨?_, ?_⟩
    · intro e he
      rcases List.mem_singleton.mp he with rfl
      exact Nat.le_refl _
    · simp [initState]
  have h := runWith_chooser_eq h1 h2 nbrs startP endP cancel fuel 0
    (initState startP endP colors0) hq
  exact ⟨h, by rw [h], by rw [h]⟩

/-! Behaviour of a whole run: invariant preservation, used for the
exhaustion claim (C2) and the shortest-path claim (C1). -/

theorem map_erase_of_nodup {α β : Type} [BEq α] [LawfulBEq α] [BEq β] [LawfulBEq β]
    {f : α → β} :
    ∀ {l : List α}, (l.map f).Nodup → ∀ {e : α}, e ∈ l →
      (l.erase e).map f = (l.map f).erase (f e) := by
  intro l
  induction l with
  | nil => intro _ e he; cases he
  | cons a as ih =>
    intro hnd e he
    by_cases hae : a = e
    · subst hae
      rw [List.erase_cons_head, List.map_cons, List.erase_cons_head]
    · have hea : e ∈ as := by
        rcases List.mem_cons.mp he with h | h
        · exact absurd h.symm hae
        · exact h
      have hfa : f a ≠ f e := by
        intro hfe
        have : f e ∈ as.map f := List.mem_map_of_mem f hea
        rw [← hfe] at this
        exact (List.nodup_cons.mp (by simpa using hnd)).1 this
      rw [List.erase_cons_tail (by simpa using hae), List.map_cons,
        List.map_cons, List.erase_cons_tail (by simpa using hfa),
        ih (by simpa using (List.nodup_cons.mp (by simpa using hnd)).2) hea]

theorem perm_erase_pos (a : Pos) {l1 l2 : List Pos} (h : l1.Perm l2) :
    (l1.erase a).Perm (l2.erase a) := by
  induction h with
  | nil => exact List.Perm.refl _
  | cons x h ih =>
    by_cases hx : x = a
    · subst hx
      rw [List.erase_cons_head, List.erase_cons_head]
      exact h
    · rw [List.erase_cons_tail (by simpa using hx),
        List.erase_cons_tail (by simpa using hx)]
      exact ih.cons x
  | swap x y l =>
    by_cases hy : y = a
    · by_cases hx : x = a
      · rw [hy, hx]
      · rw [hy, List.erase_cons_head, List.erase_cons_tail (by simpa using hx),
          List.erase_cons_head]
    · by_cases hx : x = a
      · rw [hx, List.erase_cons_tail (by simpa using hy), List.erase_cons_head,
          List.erase_cons_head]
      · rw [List.erase_cons_tail (by simpa using hy),
          List.erase_cons_tail (by simpa using hx),
          List.erase_cons_tail (by simpa using hx),
          List.erase_cons_tail (by simpa using hy)]
        exact List.Perm.swap x y _
  | trans h1 h2 ih1 ih2 => exact ih1.trans ih2

theorem mem_ite_cell {c : Prop} [Decidable c] {v x : Pos} :
    v ∈ (if c then [x] else []) ↔ c ∧ v = x := by
  by_cases h : c <;> simp [h]

theorem mem_nbrsOf_valid {numRows : Nat} {isB : Pos → Bool} {p v : Pos}
    (hp : validPos numRows p) (hv : v ∈ nbrsOf numRows isB p) :
    validPos numRows v := by
  unfold nbrsOf at hv
  simp only [List.mem_append, mem_ite_cell] at hv
  unfold validPos at hp ⊢
  rcases hv with ((⟨hc, rfl⟩ | ⟨hc, rfl⟩) | ⟨hc, rfl⟩) | ⟨hc, rfl⟩ <;> simp <;> omega

section RunInvariants

variable {numRows : Nat} {isB : Pos → Bool} {startP endP : Pos}
variable {colors0 : Pos → NodeColor}

theorem sinv_init (hvs : validPos numRows startP) :
    SInv numRows isB startP endP colors0 none (initState startP endP colors0) := by
  refine ⟨?_, ?_, ?_, ?_, ?_, ?_, ?_, ?_, ?_, ?_, ?_, ?_, ?_⟩
  · exact List.Perm.refl _
  · simp [initState]
  · simp [initState, upd]
  · intro p hp
    by_cases h : p = startP
    · subst h; exact Reach.refl
    · exact absurd (upd_other (fun _ => none) (some 0) h) hp
  · intro e he
    rcases List.mem_singleton.mp he with rfl
    simp [initState, upd]
  · intro p hp; cases hp
  · intro p hp
    by_cases h : p = startP
    · subst h; exact Or.inl (List.mem_singleton.mpr rfl)
    · exact absurd (upd_other (fun _ => none) (some 0) h) hp
  · intro p hp; cases hp
  · intro e he
    rcases List.mem_singleton.mp he with rfl
    exact hvs
  · intro p _ _ _ hp; cases hp
  · intro p _ _ _; rfl
  · rfl
  · exact Or.inl rfl

/-- In a relaxation branch the target cannot be the start node, since
g_score[start] = 0 cannot be undercut. -/
theorem relax_target_ne_start {s : SearchState} {gc : Nat} {nP : Pos}
    (hg0 : s.g_score startP = some 0)
    (hb : betterB (gc + 1) (s.g_score nP) = true) : nP ≠ startP := by
  intro h
  subst h
  rcases betterB_true hb with h | ⟨k, hk, hlt⟩
  · rw [hg0] at h; cases h
  · rw [hg0] at hk
    cases hk
    omega

theorem sinv_relaxOne {cur : Pos} {s : SearchState}
    (hnr : ¬ Reach numRows isB startP endP)
    (hinv : SInv numRows isB startP endP colors0 (some cur) s)
    (hcur : s.g_score cur ≠ none)
    {nP : Pos} (hmem : nP ∈ nbrsOf numRows isB cur) (hv : validPos numRows nP) :
    SInv numRows isB startP endP colors0 (some cur) (relaxOne endP cur s nP) ∧
    (relaxOne endP cur s nP).g_score nP ≠ none ∧
    (∀ p, s.g_score p ≠ none → (relaxOne endP cur s nP).g_score p ≠ none) ∧
    (relaxOne endP cur s nP).popped = s.popped ∧
    (∀ p ∈ s.open_set_hash, p ∈ (relaxOne endP cur s nP).open_set_hash) := by
  have hreach : Reach numRows isB startP cur := hinv.reachDisc cur hcur
  cases hg : s.g_score cur with
  | none => exact absurd hg hcur
  | some gc =>
    cases hb : betterB (gc + 1) (s.g_score nP) with
    | false =>
      rw [relaxOne_stay hg hb]
      have hd : s.g_score nP ≠ none := by
        intro h
        rw [betterB_of_none h] at hb
        cases hb
      exact ⟨hinv, hd, fun p hp => hp, rfl, fun p hp => hp⟩
    | true =>
      have hns : nP ≠ startP := relax_target_ne_start hinv.gstart hb
      have hreachN : Reach numRows isB startP nP := Reach.step hreach hmem
      have hne : nP ≠ endP := by
        intro h
        exact hnr (h ▸ hreachN)
      have hgmono : ∀ p, s.g_score p ≠ none →
          upd s.g_score nP (some (gc + 1)) p ≠ none := by
        intro p hp
        by_cases hpn : p = nP
        · subst hpn; simp [upd]
        · rw [upd_other _ _ hpn]; exact hp
      have hgnew : upd s.g_score nP (some (gc + 1)) nP ≠ none := by
        simp [upd]
      have hreachD : ∀ p, upd s.g_score nP (some (gc + 1)) p ≠ none →
          Reach numRows isB startP p := by
        intro p hp
        by_cases hpn : p = nP
        · subst hpn; exact hreachN
        · exact hinv.reachDisc p (by rw [upd_other _ _ hpn] at hp; exact hp)
      have hgstart : upd s.g_score nP (some (gc + 1)) startP = some 0 := by
        rw [upd_other _ _ (Ne.symm hns)]
        exact hinv.gstart
      by_cases hin : nP ∈ s.open_set_hash
      · rw [relaxOne_set hg hb hin]
        have hdiscLoc : ∀ p, upd s.g_score nP (some (gc + 1)) p ≠ none →
            p ∈ s.open_set_hash ∨ p ∈ s.popped := by
          intro p hp
          by_cases hpn : p = nP
          · subst hpn
            exact Or.inl hin
          · exact hinv.discLoc p (by rw [upd_other _ _ hpn] at hp; exact hp)
        exact ⟨⟨hinv.hashPerm, hinv.nodesNodup, hgstart, hreachD,
          fun e he => hgmono _ (hinv.queueDisc e he),
          fun p hp => hgmono _ (hinv.poppedDisc p hp), hdiscLoc,
          fun p hp hex v hv2 => hgmono _ (hinv.poppedNbrs p hp hex v hv2),
          hinv.validQ, hinv.colorsPopped, hinv.colorsUntouched,
          hinv.colorsStart, hinv.colorsEnd⟩, hgnew, hgmono, rfl, fun p hp => hp⟩
      · rw [relaxOne_push hg hb hin]
        have hninq : nP ∉ s.open_set.map fun e => e.2.2 :=
          fun h => hin ((hinv.hashPerm.mem_iff).mpr h)
        have hperm : (nP :: s.open_set_hash).Perm
            ((s.open_set ++ [(gc + 1 + manhattan_distance nP endP, s.count + 1, nP)]).map
              fun e => e.2.2) := by
          rw [List.map_append]
          exact (hinv.hashPerm.cons nP).trans (List.perm_append_singleton nP _).symm
        have hnodup : ((s.open_set ++
            [(gc + 1 + manhattan_distance nP endP, s.count + 1, nP)]).map
              fun e => e.2.2).Nodup := by
          rw [List.map_append]
          refine List.nodup_append.mpr ⟨hinv.nodesNodup, List.nodup_singleton _, ?_⟩
          intro x hx1 hx2
          have hx3 : x = nP := List.mem_singleton.mp hx2
          subst hx3
          exact hninq hx1
        have hqdisc : ∀ e ∈ s.open_set ++
            [(gc + 1 + manhattan_distance nP endP, s.count + 1, nP)],
            upd s.g_score nP (some (gc + 1)) e.2.2 ≠ none := by
          intro e he
          rcases List.mem_append.mp he with hm | hm
          · exact hgmono _ (hinv.queueDisc e hm)
          · rw [List.mem_singleton.mp hm]
            exact hgnew
        have hdiscLoc : ∀ p, upd s.g_score nP (some (gc + 1)) p ≠ none →
            p ∈ nP :: s.open_set_hash ∨ p ∈ s.popped := by
          intro p hp
          by_cases hpn : p = nP
          · subst hpn
            exact Or.inl (List.mem_cons_self _ _)
          · rcases hinv.discLoc p (by rw [upd_other _ _ hpn] at hp; exact hp) with h | h
            · exact Or.inl (List.mem_cons_of_mem _ h)
            · exact Or.inr h
        have hvq : ∀ e ∈ s.open_set ++
            [(gc + 1 + manhattan_distance nP endP, s.count + 1, nP)],
            validPos numRows e.2.2 := by
          intro e he
          rcases List.mem_append.mp he with hm | hm
          · exact hinv.validQ e hm
          · rw [List.mem_singleton.mp hm]
            exact hv
        have hcp : ∀ p, p ≠ startP → p ≠ endP → some p ≠ some cur → p ∈ s.popped →
            p ∉ nP :: s.open_set_hash → upd s.colors nP NodeColor.green p = NodeColor.red := by
          intro p hps hpe hex hpop hph
          have hpn : p ≠ nP := fun h => hph (h ▸ List.mem_cons_self _ _)
          rw [upd_other _ _ hpn]
          exact hinv.colorsPopped p hps hpe hex hpop
            (fun h => hph (List.mem_cons_of_mem _ h))
        have hcu : ∀ p, p ∉ nP :: s.open_set_hash → p ∉ s.popped → p ≠ endP →
            upd s.colors nP NodeColor.green p = colors0 p := by
          intro p hph hpop hpe
          have hpn : p ≠ nP := fun h => hph (h ▸ List.mem_cons_self _ _)
          rw [upd_other _ _ hpn]
          exact hinv.colorsUntouched p (fun h => hph (List.mem_cons_of_mem _ h)) hpop hpe
        have hcs : upd s.colors nP NodeColor.green startP = colors0 startP := by
          rw [upd_other _ _ (Ne.symm hns)]
          exact hinv.colorsStart
        have hce : upd s.colors nP NodeColor.green endP = colors0 endP ∨
            upd s.colors nP NodeColor.green endP = NodeColor.turquoise := by
          rw [upd_other _ _ (Ne.symm hne)]
          exact hinv.colorsEnd
        exact ⟨⟨hperm, hnodup, hgstart, hreachD, hqdisc,
          fun p hp => hgmono _ (hinv.poppedDisc p hp), hdiscLoc,
          fun p hp hex v hv2 => hgmono _ (hinv.poppedNbrs p hp hex v hv2),
          hvq, hcp, hcu, hcs, hce⟩, hgnew, hgmono, rfl,
          fun p hp => List.mem_cons_of_mem _ hp⟩

theorem sinv_relaxFold {cur : Pos} (hnr : ¬ Reach numRows isB startP endP)
    (hvc : validPos numRows cur) :
    ∀ (l : List Pos), (∀ v ∈ l, v ∈ nbrsOf numRows isB cur) →
    ∀ {s : SearchState}, SInv numRows isB startP endP colors0 (some cur) s →
      s.g_score cur ≠ none →
      SInv numRows isB startP endP colors0 (some cur) (l.foldl (relaxOne endP cur) s) ∧
      (∀ v ∈ l, (l.foldl (relaxOne endP cur) s).g_score v ≠ none) ∧
      (∀ p, s.g_score p ≠ none → (l.foldl (relaxOne endP cur) s).g_score p ≠ none) ∧
      (l.foldl (relaxOne endP cur) s).popped = s.popped := by
  intro l
  induction l with
  | nil =>
    intro _ s hinv _
    exact ⟨hinv, fun v hv => absurd hv (List.not_mem_nil v), fun p hp => hp, rfl⟩
  | cons a rest ih =>
    intro hsub s hinv hg
    have ha : a ∈ nbrsOf numRows isB cur := hsub a (List.mem_cons_self a rest)
    obtain ⟨hinv1, hda, hmono1, hpop1, _⟩ :=
      sinv_relaxOne hnr hinv hg ha (mem_nbrsOf_valid hvc ha)
    have hg1 : (relaxOne endP cur s a).g_score cur ≠ none := hmono1 cur hg
    obtain ⟨hinv2, hrest, hmono2, hpop2⟩ :=
      ih (fun v hv => hsub v (List.mem_cons_of_mem a hv)) hinv1 hg1
    rw [List.foldl_cons]
    refine ⟨hinv2, ?_, fun p hp => hmono2 p (hmono1 p hp), hpop2.trans hpop1⟩
    intro v hv
    rcases List.mem_cons.mp hv with h | h
    · subst h
      exact hmono2 v hda
    · exact hrest v h

theorem sinv_popState (hinv : SInv numRows isB startP endP colors0 none s)
    {e : Entry} (hmem : e ∈ s.open_set) :
    SInv numRows isB startP endP colors0 (some e.2.2) (popState s e) ∧
    (popState s e).g_score e.2.2 ≠ none ∧ validPos numRows e.2.2 := by
  have hcurq : e.2.2 ∈ s.open_set.map fun x => x.2.2 :=
    List.mem_map_of_mem _ hmem
  have hcurh : e.2.2 ∈ s.open_set_hash := (hinv.hashPerm.mem_iff).mpr hcurq
  have hdisc : s.g_score e.2.2 ≠ none := hinv.queueDisc e hmem
  have hmapE : (s.open_set.erase e).map (fun x => x.2.2) =
      (s.open_set.map fun x => x.2.2).erase e.2.2 :=
    map_erase_of_nodup hinv.nodesNodup hmem
  refine ⟨⟨?_, ?_, hinv.gstart, hinv.reachDisc, ?_, ?_, ?_, ?_, ?_, ?_, ?_,
    hinv.colorsStart, hinv.colorsEnd⟩, hdisc, hinv.validQ e hmem⟩
  · show (s.open_set_hash.erase e.2.2).Perm ((s.open_set.erase e).map fun x => x.2.2)
    rw [hmapE]
    exact perm_erase_pos e.2.2 hinv.hashPerm
  · show ((s.open_set.erase e).map fun x => x.2.2).Nodup
    rw [hmapE]
    exact hinv.nodesNodup.erase e.2.2
  · intro x hx
    exact hinv.queueDisc x (List.mem_of_mem_erase hx)
  · intro p hp
    rcases List.mem_append.mp hp with h | h
    · exact hinv.poppedDisc p h
    · rw [List.mem_singleton.mp h]
      exact hdisc
  · intro p hp
    rcases hinv.discLoc p hp with h | h
    · by_cases hpc : p = e.2.2
      · subst hpc
        exact Or.inr (List.mem_append.mpr (Or.inr (List.mem_singleton.mpr rfl)))
      · exact Or.inl ((List.mem_erase_of_ne hpc).mpr h)
    · exact Or.inr (List.mem_append.mpr (Or.inl h))
  · intro p hp hex v hv
    have hpc : p ≠ e.2.2 := fun h => hex (congrArg some h)
    have hpold : p ∈ s.popped := by
      rcases List.mem_append.mp hp with h | h
      · exact h
      · exact absurd (List.mem_singleton.mp h) hpc
    exact hinv.poppedNbrs p hpold (by simp) v hv
  · intro x hx
    exact hinv.validQ x (List.mem_of_mem_erase hx)
  · intro p hps hpe hex hpop hph
    have hpc : p ≠ e.2.2 := fun h => hex (congrArg some h)
    have hpold : p ∈ s.popped := by
      rcases List.mem_append.mp hpop with h | h
      · exact h
      · exact absurd (List.mem_singleton.mp h) hpc
    have hphold : p ∉ s.open_set_hash := by
      intro h
      exact hph ((List.mem_erase_of_ne hpc).mpr h)
    exact hinv.colorsPopped p hps hpe (by simp) hpold hphold
  · intro p hph hpop hpe
    have hpc : p ≠ e.2.2 := by
      intro h
      exact hpop (List.mem_append.mpr (Or.inr (List.mem_singleton.mpr h)))
    have hphold : p ∉ s.open_set_hash := by
      intro h
      exact hph ((List.mem_erase_of_ne hpc).mpr h)
    exact hinv.colorsUntouched p hphold
      (fun h => hpop (List.mem_append.mpr (Or.inl h))) hpe

theorem pop_ne_end (hnr : ¬ Reach numRows isB startP endP)
    (hinv : SInv numRows isB startP endP colors0 none s)
    {e : Entry} (hmem : e ∈ s.open_set) : e.2.2 ≠ endP := by
  intro h
  exact hnr (h ▸ hinv.reachDisc e.2.2 (hinv.queueDisc e hmem))

theorem sinv_step (hnr : ¬ Reach numRows isB startP endP) (hse : startP ≠ endP)
    (hinv : SInv numRows isB startP endP colors0 none s)
    {e : Entry} (hmem : e ∈ s.open_set) :
    SInv numRows isB startP endP colors0 none
      (stepState (nbrsOf numRows isB) startP endP (popState s e) e.2.2) := by
  obtain ⟨hinv1, hd1, hvc⟩ := sinv_popState hinv hmem
  obtain ⟨hinv2, hnbrs, hmono2, hpop2⟩ :=
    sinv_relaxFold hnr hvc (nbrsOf numRows isB e.2.2) (fun v hv => hv) hinv1 hd1
  have hcur_pop : e.2.2 ∈ (relaxAll (nbrsOf numRows isB) endP e.2.2 (popState s e)).popped := by
    rw [show (relaxAll (nbrsOf numRows isB) endP e.2.2 (popState s e)).popped =
        (popState s e).popped from hpop2]
    exact List.mem_append.mpr (Or.inr (List.mem_singleton.mpr rfl))
  set s2 := relaxAll (nbrsOf numRows isB) endP e.2.2 (popState s e) with hs2
  simp only [stepState]
  by_cases hsp : e.2.2 = startP
  · rw [if_pos hsp]
    refine ⟨hinv2.hashPerm, hinv2.nodesNodup, hinv2.gstart, hinv2.reachDisc,
      hinv2.queueDisc, hinv2.poppedDisc, hinv2.discLoc, ?_, hinv2.validQ,
      ?_, ?_, ?_, ?_⟩
    · intro p hp _ v hv
      by_cases hpc : p = e.2.2
      · subst hpc
        exact hnbrs v hv
      · exact hinv2.poppedNbrs p hp (fun h => hpc (Option.some.inj h)) v hv
    · intro p hps hpe _ hpop hph
      have hpc : p ≠ e.2.2 := fun h => hps (h ▸ hsp)
      show upd s2.colors endP NodeColor.turquoise p = NodeColor.red
      rw [upd_other _ _ hpe]
      exact hinv2.colorsPopped p hps hpe (fun h => hpc (Option.some.inj h)) hpop hph
    · intro p hph hpop hpe
      show upd s2.colors endP NodeColor.turquoise p = colors0 p
      rw [upd_other _ _ hpe]
      exact hinv2.colorsUntouched p hph hpop hpe
    · show upd s2.colors endP NodeColor.turquoise startP = colors0 startP
      rw [upd_other _ _ hse]
      exact hinv2.colorsStart
    · show upd s2.colors endP NodeColor.turquoise endP = colors0 endP ∨
        upd s2.colors endP NodeColor.turquoise endP = NodeColor.turquoise
      exact Or.inr (upd_same _ _ _)
  · rw [if_neg hsp]
    refine ⟨hinv2.hashPerm, hinv2.nodesNodup, hinv2.gstart, hinv2.reachDisc,
      hinv2.queueDisc, hinv2.poppedDisc, hinv2.discLoc, ?_, hinv2.validQ,
      ?_, ?_, ?_, ?_⟩
    · intro p hp _ v hv
      by_cases hpc : p = e.2.2
      · subst hpc
        exact hnbrs v hv
      · exact hinv2.poppedNbrs p hp (fun h => hpc (Option.some.inj h)) v hv
    · intro p hps hpe _ hpop hph
      show upd (upd s2.colors e.2.2 NodeColor.red) endP NodeColor.turquoise p =
        NodeColor.red
      rw [upd_other _ _ hpe]
      by_cases hpc : p = e.2.2
      · rw [hpc]
        exact upd_same _ _ _
      · rw [upd_other _ _ hpc]
        exact hinv2.colorsPopped p hps hpe (fun h => hpc (Option.some.inj h)) hpop hph
    · intro p hph hpop hpe
      have hpc : p ≠ e.2.2 := by
        intro h
        subst h
        exact hpop hcur_pop
      show upd (upd s2.colors e.2.2 NodeColor.red) endP NodeColor.turquoise p = colors0 p
      rw [upd_other _ _ hpe, upd_other _ _ hpc]
      exact hinv2.colorsUntouched p hph hpop hpe
    · show upd (upd s2.colors e.2.2 NodeColor.red) endP NodeColor.turquoise startP =
        colors0 startP
      rw [upd_other _ _ hse, upd_other _ _ (fun h => hsp (h.symm))]
      exact hinv2.colorsStart
    · show upd (upd s2.colors e.2.2 NodeColor.red) endP NodeColor.turquoise endP =
          colors0 endP ∨
        upd (upd s2.colors e.2.2 NodeColor.red) endP NodeColor.turquoise endP =
          NodeColor.turquoise
      exact Or.inr (upd_same _ _ _)

theorem run_exhausts_of_inv (hnr : ¬ Reach numRows isB startP endP)
    (hse : startP ≠ endP) :
    ∀ (n t : Nat) (s : SearchState),
      SInv numRows isB startP endP colors0 none s →
      (runWith queueMin (nbrsOf numRows isB) startP endP noCancel n t s).tag ≠ 3 →
      ∃ s', runWith queueMin (nbrsOf numRows isB) startP endP noCancel n t s =
          RunResult.exhausted s' ∧
        SInv numRows isB startP endP colors0 none s' ∧ s'.open_set = [] := by
  intro n
  induction n with
  | zero =>
    intro t s _ htag
    exact absurd rfl htag
  | succ f ih =>
    intro t s hinv htag
    by_cases he : s.open_set = []
    · rw [runWith_empty queueMin (nbrsOf numRows isB) startP endP noCancel f t he]
      exact ⟨s, rfl, hinv, he⟩
    · obtain ⟨e, hch, hm, _⟩ := queueMin_valid s.open_set he
      have hcne : e.2.2 ≠ endP := pop_ne_end hnr hinv hm
      rw [runWith_succ (nbrsOf numRows isB) startP endP f t he rfl hch, if_neg hcne] at htag ⊢
      exact ih (t + 1) _ (sinv_step hnr hse hinv hm) htag

theorem mem_gridPositions {p : Pos} :
    p ∈ gridPositions numRows ↔ validPos numRows p := by
  unfold gridPositions validPos
  simp only [List.mem_flatMap, List.mem_map, List.mem_range]
  constructor
  · rintro ⟨r, hr, c, hc, rfl⟩
    exact ⟨hr, hc⟩
  · rintro ⟨h1, h2⟩
    exact ⟨p.1, h1, p.2, h2, rfl⟩

theorem nodup_gridPositions (n : Nat) : (gridPositions n).Nodup := by
  unfold gridPositions
  refine List.nodup_flatMap.mpr ⟨?_, ?_⟩
  · intro r _
    refine List.Nodup.map ?_ (List.nodup_range _)
    intro a b hab
    cases hab
    rfl
  · refine List.Pairwise.imp ?_ (List.nodup_range n)
    intro a b hab y hya hyb
    simp only [List.mem_map, List.mem_range] at hya hyb
    obtain ⟨c1, _, rfl⟩ := hya
    obtain ⟨c2, _, hy2⟩ := hyb
    cases hy2
    exact hab rfl

theorem countP_strict_lt {α : Type} :
    ∀ (l : List α) (p q : α → Bool), (∀ x ∈ l, q x = true → p x = true) →
      ∀ a ∈ l, p a = true → q a = false → l.countP q < l.countP p := by
  intro l
  induction l with
  | nil =>
    intro p q _ a ha
    cases ha
  | cons b t ih =>
    intro p q hmono a ha hpa hqa
    rw [List.countP_cons, List.countP_cons]
    rcases List.mem_cons.mp ha with rfl | hat
    · have h1 : t.countP q ≤ t.countP p :=
        List.countP_mono_left (fun x hx => hmono x (List.mem_cons_of_mem _ hx))
      rw [hqa, hpa, if_neg (by simp), if_pos rfl]
      omega
    · have h1 := ih p q (fun x hx => hmono x (List.mem_cons_of_mem _ hx)) a hat hpa hqa
      have h2 : (if q b then 1 else 0) ≤ (if p b then 1 else 0) := by
        by_cases hq : q b
        · have hp := hmono b (List.mem_cons_self b t) hq
          simp [hq, hp]
        · simp [hq]
      omega

theorem sum_map_strict_lt {α : Type} :
    ∀ (l : List α) (f f' : α → Nat), l.Nodup → ∀ {a : α}, a ∈ l → f' a < f a →
      (∀ x ∈ l, x ≠ a → f' x = f x) → (l.map f').sum < (l.map f).sum := by
  intro l
  induction l with
  | nil =>
    intro f f' _ a ha
    cases ha
  | cons b t ih =>
    intro f f' hnd a ha hfa hagree
    rw [List.map_cons, List.map_cons, List.sum_cons, List.sum_cons]
    rcases List.mem_cons.mp ha with rfl | hat
    · have hteq : t.map f' = t.map f :=
        List.map_congr_left fun x hx =>
          hagree x (List.mem_cons_of_mem _ hx)
            (fun hxa => (List.nodup_cons.mp hnd).1 (hxa ▸ hx))
      rw [hteq]
      omega
    · have hb : f' b = f b :=
        hagree b (List.mem_cons_self b t)
          (fun hba => (List.nodup_cons.mp hnd).1 (hba ▸ hat))
      have ht := ih f f' (List.nodup_cons.mp hnd).2 hat hfa
        (fun x hx hxa => hagree x (List.mem_cons_of_mem _ hx) hxa)
      omega

theorem mUndisc_congr {s1 s2 : SearchState} (h : s1.g_score = s2.g_score) :
    mUndisc numRows s1 = mUndisc numRows s2 := by
  unfold mUndisc
  rw [h]

theorem mGsum_congr {s1 s2 : SearchState} (h : s1.g_score = s2.g_score) :
    mGsum numRows s1 = mGsum numRows s2 := by
  unfold mGsum
  rw [h]

theorem countP_pointwise_eq {α : Type} :
    ∀ (l : List α) (p q : α → Bool), (∀ x ∈ l, p x = q x) → l.countP p = l.countP q := by
  intro l
  induction l with
  | nil => intro p q _; rfl
  | cons b t ih =>
    intro p q h
    rw [List.countP_cons, List.countP_cons,
      ih p q (fun x hx => h x (List.mem_cons_of_mem _ hx)),
      h b (List.mem_cons_self b t)]

theorem relaxOne_measure (endP curP : Pos) (s : SearchState) {nP : Pos}
    (hv : validPos numRows nP) :
    relaxMeasureLt numRows (relaxOne endP curP s nP) s := by
  cases hg : s.g_score curP with
  | none =>
    rw [relaxOne_none nP hg]
    exact Or.inl rfl
  | some gc =>
    cases hb2 : betterB (gc + 1) (s.g_score nP) with
    | false =>
      rw [relaxOne_stay hg hb2]
      exact Or.inl rfl
    | true =>
      have hgeq : ∀ s' : SearchState, s'.g_score = upd s.g_score nP (some (gc + 1)) →
          relaxMeasureLt numRows s' s := by
        intro s' hgs
        rcases betterB_true hb2 with hnone | ⟨k, hk, hlt⟩
        · refine Or.inr (Or.inl ?_)
          unfold mUndisc
          refine countP_strict_lt _ _ _ ?_ nP (mem_gridPositions.mpr hv) ?_ ?_
          · intro x _ hq
            rw [hgs] at hq
            by_cases hxn : x = nP
            · subst hxn
              rw [upd_same] at hq
              cases hq
            · rw [upd_other _ _ hxn] at hq
              exact hq
          · rw [hnone]
            rfl
          · rw [hgs, upd_same]
            rfl
        · refine Or.inr (Or.inr ⟨?_, ?_⟩)
          · unfold mUndisc
            refine countP_pointwise_eq _ _ _ ?_
            intro x _
            rw [hgs]
            by_cases hxn : x = nP
            · subst hxn
              rw [upd_same, hk]
              rfl
            · rw [upd_other _ _ hxn]
          · unfold mGsum
            refine sum_map_strict_lt _ _ _ (nodup_gridPositions _)
              (mem_gridPositions.mpr hv) ?_ ?_
            · rw [hgs, upd_same, hk]
              simpa using hlt
            · intro x _ hxn
              rw [hgs, upd_other _ _ hxn]
      by_cases hin : nP ∈ s.open_set_hash
      · rw [relaxOne_set hg hb2 hin]
        exact hgeq _ rfl
      · rw [relaxOne_push hg hb2 hin]
        exact hgeq _ rfl

theorem relaxMeasureLt_trans {s3 s2 s1 : SearchState}
    (h32 : relaxMeasureLt numRows s3 s2) (h21 : relaxMeasureLt numRows s2 s1) :
    relaxMeasureLt numRows s3 s1 := by
  rcases h32 with rfl | h32 | ⟨he32, hl32⟩
  · exact h21
  · rcases h21 with rfl | h21 | ⟨he21, _⟩
    · exact Or.inr (Or.inl h32)
    · exact Or.inr (Or.inl (h32.trans h21))
    · exact Or.inr (Or.inl (by rw [← he21]; exact h32))
  · rcases h21 with rfl | h21 | ⟨he21, hl21⟩
    · exact Or.inr (Or.inr ⟨he32, hl32⟩)
    · exact Or.inr (Or.inl (by rw [he32]; exact h21))
    · exact Or.inr (Or.inr ⟨he32.trans he21, hl32.trans hl21⟩)

theorem relaxAll_measure (endP curP : Pos) :
    ∀ (l : List Pos), (∀ v ∈ l, validPos numRows v) → ∀ s : SearchState,
      relaxMeasureLt numRows (l.foldl (relaxOne endP curP) s) s := by
  intro l
  induction l with
  | nil =>
    intro _ s
    exact Or.inl rfl
  | cons a t ih =>
    intro hval s
    rw [List.foldl_cons]
    exact relaxMeasureLt_trans
      (ih (fun v hv => hval v (List.mem_cons_of_mem _ hv)) _)
      (relaxOne_measure endP curP s (hval a (List.mem_cons_self a t)))

theorem stepState_g_score (nbrs : Pos → List Pos) (sP eP : Pos)
    (s1 : SearchState) (curP : Pos) :
    (stepState nbrs sP eP s1 curP).g_score = (relaxAll nbrs eP curP s1).g_score := by
  by_cases h : curP = sP
  · simp only [stepState, if_pos h]
  · simp only [stepState, if_neg h]

theorem stepState_open_set (nbrs : Pos → List Pos) (sP eP : Pos)
    (s1 : SearchState) (curP : Pos) :
    (stepState nbrs sP eP s1 curP).open_set = (relaxAll nbrs eP curP s1).open_set := by
  by_cases h : curP = sP
  · simp only [stepState, if_pos h]
  · simp only [stepState, if_neg h]

theorem run_term (hnr : ¬ Reach numRows isB startP endP) (hse : startP ≠ endP) :
    ∀ (a b c t : Nat) (s : SearchState),
      SInv numRows isB startP endP colors0 none s →
      mUndisc numRows s = a → mGsum numRows s = b → s.open_set.length = c →
      ∃ n s', runWith queueMin (nbrsOf numRows isB) startP endP noCancel n t s =
          RunResult.exhausted s' ∧
        SInv numRows isB startP endP colors0 none s' ∧ s'.open_set = [] := by
  intro a
  induction a using Nat.strong_induction_on with
  | _ a iha =>
  intro b
  induction b using Nat.strong_induction_on with
  | _ b ihb =>
  intro c
  induction c using Nat.strong_induction_on with
  | _ c ihc =>
  intro t s hinv ha hb hc
  by_cases he : s.open_set = []
  · exact ⟨1, s, runWith_empty queueMin (nbrsOf numRows isB) startP endP noCancel 0 t he,
      hinv, he⟩
  · obtain ⟨e, hch, hm, _⟩ := queueMin_valid s.open_set he
    have hcne : e.2.2 ≠ endP := pop_ne_end hnr hinv hm
    have hvc : validPos numRows e.2.2 := hinv.validQ e hm
    have hinv4 : SInv numRows isB startP endP colors0 none
        (stepState (nbrsOf numRows isB) startP endP (popState s e) e.2.2) :=
      sinv_step hnr hse hinv hm
    have hrel : relaxMeasureLt numRows
        (relaxAll (nbrsOf numRows isB) endP e.2.2 (popState s e)) (popState s e) :=
      relaxAll_measure endP e.2.2 (nbrsOf numRows isB e.2.2)
        (fun v hv => mem_nbrsOf_valid hvc hv) (popState s e)
    have hg4 : (stepState (nbrsOf numRows isB) startP endP (popState s e) e.2.2).g_score =
        (relaxAll (nbrsOf numRows isB) endP e.2.2 (popState s e)).g_score :=
      stepState_g_score _ _ _ _ _
    have hos4 : (stepState (nbrsOf numRows isB) startP endP (popState s e) e.2.2).open_set =
        (relaxAll (nbrsOf numRows isB) endP e.2.2 (popState s e)).open_set :=
      stepState_open_set _ _ _ _ _
    have hU4 := @mUndisc_congr numRows _ _ hg4
    have hG4 := @mGsum_congr numRows _ _ hg4
    have hfin : ∀ n s', runWith queueMin (nbrsOf numRows isB) startP endP noCancel n (t + 1)
          (stepState (nbrsOf numRows isB) startP endP (popState s e) e.2.2) =
          RunResult.exhausted s' →
        SInv numRows isB startP endP colors0 none s' → s'.open_set = [] →
        ∃ n2 s2, runWith queueMin (nbrsOf numRows isB) startP endP noCancel n2 t s =
            RunResult.exhausted s2 ∧
          SInv numRows isB startP endP colors0 none s2 ∧ s2.open_set = [] := by
      intro n s' heqr hinv' he'
      refine ⟨n + 1, s', ?_, hinv', he'⟩
      rw [runWith_succ (nbrsOf numRows isB) startP endP n t he rfl hch, if_neg hcne]
      exact heqr
    rcases hrel with heq | hlt | ⟨heq2, hlt2⟩
    · have hlen : (stepState (nbrsOf numRows isB) startP endP (popState s e) e.2.2).open_set.length < c := by
        rw [hos4, heq]
        have hpe : (popState s e).open_set.length = s.open_set.length - 1 := by
          show (s.open_set.erase e).length = s.open_set.length - 1
          exact List.length_erase_of_mem hm
        rw [hpe, ← hc]
        exact Nat.sub_lt (List.length_pos.mpr he) Nat.one_pos
      have hU : mUndisc numRows (stepState (nbrsOf numRows isB) startP endP (popState s e) e.2.2) = a := by
        rw [hU4, heq]
        exact ha
      have hG : mGsum numRows (stepState (nbrsOf numRows isB) startP endP (popState s e) e.2.2) = b := by
        rw [hG4, heq]
        exact hb
      obtain ⟨n, s', heqr, hinv', he'⟩ := ihc _ hlen (t + 1) _ hinv4 hU hG rfl
      exact hfin n s' heqr hinv' he'
    · have hltA : mUndisc numRows (stepState (nbrsOf numRows isB) startP endP (popState s e) e.2.2) < a := by
        rw [hU4, ← ha]
        exact hlt
      obtain ⟨n, s', heqr, hinv', he'⟩ := iha _ hltA _ _ (t + 1) _ hinv4 rfl rfl rfl
      exact hfin n s' heqr hinv' he'
    · have hU : mUndisc numRows (stepState (nbrsOf numRows isB) startP endP (popState s e) e.2.2) = a := by
        rw [hU4, heq2]
        exact ha
      have hltB : mGsum numRows (stepState (nbrsOf numRows isB) startP endP (popState s e) e.2.2) < b := by
        rw [hG4, ← hb]
        exact hlt2
      obtain ⟨n, s', heqr, hinv', he'⟩ := ihb _ hltB _ (t + 1) _ hinv4 hU rfl rfl
      exact hfin n s' heqr hinv' he'

theorem reach_disc_of_exhausted {s' : SearchState}
    (hinv : SInv numRows isB startP endP colors0 none s')
    (hhash : s'.open_set_hash = []) :
    ∀ p, Reach numRows isB startP p → s'.g_score p ≠ none := by
  intro p hr
  induction hr with
  | refl =>
    rw [hinv.gstart]
    exact Option.some_ne_none 0
  | step h hv ih =>
    rename_i u v
    have hu : u ∈ s'.open_set_hash ∨ u ∈ s'.popped := hinv.discLoc u ih
    rw [hhash] at hu
    rcases hu with hu | hu
    · cases hu
    · exact hinv.poppedNbrs u hu (by simp) v hv

theorem exhausted_colors {s' : SearchState}
    (hnr : ¬ Reach numRows isB startP endP)
    (hinv : SInv numRows isB startP endP colors0 none s')
    (he : s'.open_set = [])
    (hnp : ∀ p ∈ gridPositions numRows, colors0 p ≠ NodeColor.purple) :
    (∀ p, Reach numRows isB startP p → p ≠ startP → s'.colors p = NodeColor.red) ∧
    (∀ p ∈ gridPositions numRows, s'.colors p ≠ NodeColor.purple) := by
  have hhash : s'.open_set_hash = [] := by
    have hp := hinv.hashPerm
    rw [he] at hp
    exact hp.eq_nil
  have hdisc := reach_disc_of_exhausted hinv hhash
  have hpopped : ∀ p, Reach numRows isB startP p → p ∈ s'.popped := by
    intro p hr
    rcases hinv.discLoc p (hdisc p hr) with h | h
    · rw [hhash] at h
      cases h
    · exact h
  constructor
  · intro p hr hps
    have hpe : p ≠ endP := by
      intro h
      exact hnr (h ▸ hr)
    refine hinv.colorsPopped p hps hpe (by simp) (hpopped p hr) ?_
    rw [hhash]
    exact List.not_mem_nil p
  · intro p hpg
    by_cases hpe : p = endP
    · subst hpe
      rcases hinv.colorsEnd with h | h
      · rw [h]
        exact hnp _ hpg
      · rw [h]
        decide
    · by_cases hpop : p ∈ s'.popped
      · by_cases hps : p = startP
        · subst hps
          rw [hinv.colorsStart]
          exact hnp _ hpg
        · rw [hinv.colorsPopped p hps hpe (by simp) hpop
            (by rw [hhash]; exact List.not_mem_nil p)]
          decide
      · rw [hinv.colorsUntouched p (by rw [hhash]; exact List.not_mem_nil p) hpop hpe]
        exact hnp _ hpg

end RunInvariants

/-- C2 amended: on a grid in which no sequence of 4-adjacent non-barrier
cells connects Start to End, the search run terminates by emptying the
frontier with the Exhausted outcome (never Found), every cell reachable
from Start other than the Start cell itself is marked Closed (red), and no
grid cell is marked Path (purple); the Start cell itself keeps its own
colour (the loop skips make_closed for it), which is the one correction to
the claim. -/
theorem claim_C2 (numRows : Nat) (isB : Pos → Bool) (startP endP : Pos)
    (colors0 : Pos → NodeColor)
    (hvs : validPos numRows startP) (hve : validPos numRows endP)
    (hse : startP ≠ endP) (hnr : ¬ Reach numRows isB startP endP)
    (hnp : ∀ p ∈ gridPositions numRows, colors0 p ≠ NodeColor.purple) :
    ∃ (fuel : Nat) (s' : SearchState),
      generate_path (nbrsOf numRows isB) startP endP noCancel colors0 fuel =
        RunResult.exhausted s' ∧
      s'.open_set = [] ∧
      (∀ p, Reach numRows isB startP p → p ≠ startP →
        s'.colors p = NodeColor.red) ∧
      (∀ p ∈ gridPositions numRows, s'.colors p ≠ NodeColor.purple) := by
  obtain ⟨n, s', heq, hinv', he'⟩ :=
    run_term hnr hse (mUndisc numRows (initState startP endP colors0))
      (mGsum numRows (initState startP endP colors0))
      (initState startP endP colors0).open_set.length 0
      (initState startP endP colors0) (sinv_init hvs) rfl rfl rfl
  obtain ⟨hred, hpurple⟩ := exhausted_colors hnr hinv' he' hnp
  exact ⟨n, s', heq, he', hred, hpurple⟩

/-- C2 counterexample to the claim as stated: in the 3 x 3 wall scenario
the run is exhausted, the start cell (0,0) is reachable from Start, yet its
final state is Start (orange), not Closed (red). -/
theorem claim_C2_counterexample :
    (generate_path (nbrsOf 3 wallBarrier) (0, 0) (0, 2) noCancel wallColors 30).tag = 1 ∧
    Reach 3 wallBarrier (0, 0) (0, 0) ∧
    (generate_path (nbrsOf 3 wallBarrier) (0, 0) (0, 2) noCancel wallColors 30).state.colors
      (0, 0) = NodeColor.orange ∧
    NodeColor.orange ≠ NodeColor.red :=
  ⟨rfl, Reach.refl, rfl, by decide⟩

theorem wall_reach_bounded :
    ∀ p, Reach 3 wallBarrier (0, 0) p →
      p ∈ [((0 : Nat), (0 : Nat)), (1, 0), (2, 0)] := by
  intro p hr
  induction hr with
  | refl => decide
  | step h hv ih =>
    rename_i u v
    have hsub : ∀ w ∈ nbrsOf 3 wallBarrier u,
        w ∈ [((0 : Nat), (0 : Nat)), (1, 0), (2, 0)] := by
      rcases List.mem_cons.mp ih with h1 | h1
      · subst h1; decide
      · rcases List.mem_cons.mp h1 with h2 | h2
        · subst h2; decide
        · rcases List.mem_cons.mp h2 with h3 | h3
          · subst h3; decide
          · cases h3
    exact hsub v hv

theorem wall_unreachable : ¬ Reach 3 wallBarrier (0, 0) (0, 2) := by
  intro h
  have := wall_reach_bounded _ h
  revert this
  decide

/-- C2 witness: the 3 x 3 wall scenario instantiates the amended claim. -/
theorem claim_C2_witness :
    ∃ (fuel : Nat) (s' : SearchState),
      generate_path (nbrsOf 3 wallBarrier) (0, 0) (0, 2) noCancel wallColors fuel =
        RunResult.exhausted s' ∧
      s'.open_set = [] ∧
      (∀ p, Reach 3 wallBarrier (0, 0) p → p ≠ (0, 0) →
        s'.colors p = NodeColor.red) ∧
      (∀ p ∈ gridPositions 3, s'.colors p ≠ NodeColor.purple) :=
  claim_C2 3 wallBarrier (0, 0) (0, 2) wallColors ⟨by decide, by decide⟩
    ⟨by decide, by decide⟩ (by decide) wall_unreachable (by decide)

/-- C3 witness: both runs taken with the PriorityQueue selection on a
concrete 3 x 3 empty grid coincide. -/
theorem claim_C3_witness :
    runWith queueMin (nbrsOf 3 (fun _ => false)) (0, 0) (2, 2) (fun _ => false) 12 0
        (initState (0, 0) (2, 2) (fun _ => NodeColor.white)) =
      runWith queueMin (nbrsOf 3 (fun _ => false)) (0, 0) (2, 2) (fun _ => false) 12 0
        (initState (0, 0) (2, 2) (fun _ => NodeColor.white)) :=
  (claim_C3 queueMin_valid queueMin_valid (nbrsOf 3 (fun _ => false)) (0, 0) (2, 2)
    (fun _ => false) (fun _ => NodeColor.white) 12).1

theorem getNode_create_grid {N W row col : Nat} (hr : row < N) (hc : col < N) :
    getNode (create_grid N W) (row, col) = Node.make row col (W / N) N := by
  simp [getNode, create_grid, List.getElem?_map, List.getElem?_range, hr, hc]

/-- C9: Node.reset changes only the colour (to white) and the neighbor
list (emptied); row, column, width, total_rows, x and y are unchanged. -/
theorem claim_C9 (n : Node) :
    n.reset.row = n.row ∧ n.reset.column = n.column ∧ n.reset.width = n.width ∧
    n.reset.total_rows = n.total_rows ∧ n.reset.x = n.x ∧ n.reset.y = n.y ∧
    n.reset.color = NodeColor.white ∧ n.reset.neighbors = [] := by
  simp [Node.reset]

/-- C10: mapping a grid node's pixel coordinates back through
get_clicked_position returns exactly its (row, column), whenever
0 < N <= W. -/
theorem claim_C10 (N W row col : Nat) (hN : 0 < N) (hNW : N ≤ W)
    (hr : row < N) (hc : col < N) :
    get_clicked_position
      ((getNode (create_grid N W) (row, col)).x, (getNode (create_grid N W) (row, col)).y)
      N W = (row, col) := by
  have hw : 0 < W / N := Nat.div_pos hNW hN
  rw [getNode_create_grid hr hc]
  simp [Node.make, get_clicked_position, Nat.mul_div_cancel _ hw]

/-- C10 witness: the default 25-row, 600-pixel grid round-trips (7, 13). -/
theorem claim_C10_witness :
    get_clicked_position
      ((getNode (create_grid 25 600) (7, 13)).x, (getNode (create_grid 25 600) (7, 13)).y)
      25 600 = (7, 13) :=
  claim_C10 25 600 7 13 (by decide) (by decide) (by decide) (by decide)

/-- C8 counterexample: with start (0,0) and end (0,2) the first (and only)
tuple in the fresh frontier is (0, 0, start) although f_score[start] is the
Manhattan distance 2, so the pushed priority component is 0, not
f_score[start]. -/
theorem claim_C8_counterexample :
    (initState (0, 0) (0, 2) (fun _ => NodeColor.white)).open_set =
      [(0, 0, ((0 : Nat), (0 : Nat)))] ∧
    (initState (0, 0) (0, 2) (fun _ => NodeColor.white)).f_score (0, 0) = some 2 ∧
    manhattan_distance (0, 0) (0, 2) = 2 ∧
    ((0 : Nat), (0 : Nat), ((0 : Nat), (0 : Nat))) ≠
      ((2 : Nat), (0 : Nat), ((0 : Nat), (0 : Nat))) := by
  refine ⟨rfl, by decide, by decide, by decide⟩

/-- C8 amended: at the beginning of a run g_score[start] = 0 and
f_score[start] = manhattan_distance(start, end), but the first tuple pushed
onto the frontier is (0, 0, start): its priority component is the literal 0,
not f_score[start]. -/
theorem claim_C8 (startP endP : Pos) (colors0 : Pos → NodeColor) :
    (initState startP endP colors0).g_score startP = some 0 ∧
    (initState startP endP colors0).f_score startP =
      some (manhattan_distance startP endP) ∧
    (initState startP endP colors0).open_set = [(0, 0, startP)] ∧
    (initState startP endP colors0).count = 0 := by
  refine ⟨?_, ?_, rfl, rfl⟩ <;> simp [initState]

/-- C5: if the cancel signal is set before the first frontier pop, the run
ends as cancelled with the state exactly as built by initState: zero
relaxations performed and every cell colour as at the start of the run. -/
theorem claim_C5 (nbrs : Pos → List Pos) (startP endP : Pos) (cancel : Nat → Bool)
    (colors0 : Pos → NodeColor) (fuel : Nat)
    (hc : cancel 0 = true) (hf : 0 < fuel) :
    generate_path nbrs startP endP cancel colors0 fuel =
      RunResult.cancelled (initState startP endP colors0) ∧
    (initState startP endP colors0).relaxes = 0 ∧
    (initState startP endP colors0).colors = colors0 := by
  obtain ⟨f, rfl⟩ : ∃ f, fuel = f + 1 := ⟨fuel - 1, (Nat.succ_pred_eq_of_pos hf).symm⟩
  refine ⟨?_, rfl, rfl⟩
  simp [generate_path, runWith, initState, hc]

/-- C5 witness at a concrete grid and an always-set cancel signal. -/
theorem claim_C5_witness :
    generate_path (nbrsOf 2 (fun _ => false)) (0, 0) (1, 1) (fun _ => true)
      (fun _ => NodeColor.white) 5 =
      RunResult.cancelled (initState (0, 0) (1, 1) (fun _ => NodeColor.white)) ∧
    (initState (0, 0) (1, 1) (fun _ => NodeColor.white)).relaxes = 0 ∧
    (initState (0, 0) (1, 1) (fun _ => NodeColor.white)).colors =
      (fun _ => NodeColor.white) :=
  claim_C5 (nbrsOf 2 (fun _ => false)) (0, 0) (1, 1) (fun _ => true)
    (fun _ => NodeColor.white) 5 rfl (by decide)

/-- C6: pressing SPACE with neither start nor end set is not a no-op: the
pre-run pass first mutates cell states (the stale path cell (0,1) becomes
white), and generate_path then raises AttributeError on None.get_pos(). -/
theorem claim_C6_run :
    (beginSearch gridStale22 none none (fun _ => false) 10).2 =
      Except.error PyErr.attributeError ∧
    (getNode (beginSearch gridStale22 none none (fun _ => false) 10).1 (0, 1)).color =
      NodeColor.white ∧
    (getNode gridStale22 (0, 1)).color = NodeColor.purple ∧
    NodeColor.white ≠ NodeColor.purple :=
  ⟨rfl, rfl, rfl, by decide⟩

theorem reconWalk_spec (origin : Pos → Option Pos) :
    ∀ (fuel : Nat) (cur : Pos) (cols : Pos → NodeColor) (p : Pos),
      (p ∈ reconChain origin fuel cur →
        reconWalk origin fuel cur cols p = NodeColor.purple) ∧
      (p ∉ reconChain origin fuel cur →
        reconWalk origin fuel cur cols p = cols p) := by
  intro fuel
  induction fuel with
  | zero =>
    intro cur cols p
    exact ⟨by simp [reconChain], fun _ => rfl⟩
  | succ f ih =>
    intro cur cols p
    cases h : origin cur with
    | none =>
      refine ⟨?_, ?_⟩ <;> intro hp <;> simp [reconChain, reconWalk, h] at hp ⊢
    | some q =>
      constructor
      · intro hp
        simp only [reconChain, h, List.mem_cons] at hp
        simp only [reconWalk, h]
        rcases hp with hq | hmem
        · by_cases hmem2 : p ∈ reconChain origin f q
          · exact (ih q (upd cols q NodeColor.purple) p).1 hmem2
          · rw [(ih q (upd cols q NodeColor.purple) p).2 hmem2, hq]
            exact upd_same _ _ _
        · exact (ih q (upd cols q NodeColor.purple) p).1 hmem
      · intro hp
        simp only [reconChain, h, List.mem_cons, not_or] at hp
        simp only [reconWalk, h]
        rw [(ih q (upd cols q NodeColor.purple) p).2 hp.2]
        exact upd_other _ _ hp.1

/-- C4 amended: the reconstructor sets the state of every predecessor it
walks through to Path, including the Start cell when it is reached (the
engine repaints start and end only afterwards), and leaves every other
cell colour unchanged. -/
theorem claim_C4 (origin : Pos → Option Pos) (endP : Pos) (cols : Pos → NodeColor)
    (fuel : Nat) (p : Pos) :
    (p ∈ reconChain origin fuel endP →
      reconstruct_path origin endP cols fuel p = NodeColor.purple) ∧
    (p ∉ reconChain origin fuel endP →
      reconstruct_path origin endP cols fuel p = cols p) :=
  reconWalk_spec origin fuel endP cols p

/-- C4 counterexample: with the origin map sending (0,1) to the start cell
(0,0), the reconstructor paints the start cell purple, contradicting the
claim that a Start predecessor is skipped. -/
theorem claim_C4_counterexample :
    reconstruct_path originPair (0, 1) colorsPair 5 (0, 0) = NodeColor.purple ∧
    colorsPair (0, 0) = NodeColor.orange ∧
    NodeColor.purple ≠ NodeColor.orange :=
  ⟨rfl, rfl, by decide⟩

/-- C4 witness: the start cell (0,0) is in the walked chain and is painted
purple. -/
theorem claim_C4_witness :
    reconstruct_path originPair (0, 1) colorsPair 5 (0, 0) = NodeColor.purple :=
  (claim_C4 originPair (0, 1) colorsPair 5 (0, 0)).1 (by decide)

section ShortestPath

variable {numRows : Nat} {startP endP : Pos}

theorem man_self (p : Pos) : manhattan_distance p p = 0 := by
  unfold manhattan_distance Nat.dist
  omega

theorem man_eq_zero {p q : Pos} (h : manhattan_distance p q = 0) : p = q := by
  unfold manhattan_distance Nat.dist at h
  refine Prod.ext ?_ ?_ <;> omega

theorem man_comm (p q : Pos) : manhattan_distance p q = manhattan_distance q p := by
  unfold manhattan_distance Nat.dist
  omega

theorem man_triangle (a b c : Pos) :
    manhattan_distance a c ≤ manhattan_distance a b + manhattan_distance b c := by
  unfold manhattan_distance Nat.dist
  omega

theorem man_parity (p q : Pos) :
    manhattan_distance p q % 2 = (p.1 + p.2 + q.1 + q.2) % 2 := by
  unfold manhattan_distance Nat.dist
  omega

/-- On the barrier-free grid the neighbor list of a valid cell holds exactly
the valid cells at Manhattan distance 1. -/
theorem mem_nbrsOf_noBarrier {p v : Pos} (hp : validPos numRows p) :
    v ∈ nbrsOf numRows noBarrier p ↔
      validPos numRows v ∧ manhattan_distance p v = 1 := by
  obtain ⟨hp1, hp2⟩ := hp
  unfold nbrsOf noBarrier
  simp only [List.mem_append, mem_ite_cell, Bool.false_eq_true, not_false_eq_true,
    and_true, true_and, Prod.ext_iff]
  unfold validPos manhattan_distance Nat.dist
  constructor
  · rintro (((⟨hc, h1, h2⟩ | ⟨hc, h1, h2⟩) | ⟨hc, h1, h2⟩) | ⟨hc, h1, h2⟩) <;>
      refine ⟨⟨?_, ?_⟩, ?_⟩ <;> omega
  · rintro ⟨⟨hv1, hv2⟩, hd⟩
    omega

theorem adj_layer {p v : Pos} (s : Pos) (h : manhattan_distance p v = 1) :
    manhattan_distance s v = manhattan_distance s p + 1 ∨
    manhattan_distance s p = manhattan_distance s v + 1 := by
  have h1 := man_triangle s p v
  have h2 := man_triangle s v p
  rw [h] at h1
  rw [man_comm v p, h] at h2
  have hpar1 := man_parity s v
  have hpar2 := man_parity s p
  have hpar3 := man_parity p v
  rw [h] at hpar3
  omega

/-- From any valid cell p at positive Manhattan distance from a valid cell
a there is an adjacent valid cell one step closer to a. -/
theorem move_toward {a p : Pos} (hva : validPos numRows a) (hvp : validPos numRows p)
    (h : 0 < manhattan_distance a p) :
    ∃ q : Pos, validPos numRows q ∧ manhattan_distance p q = 1 ∧
      manhattan_distance a q + 1 = manhattan_distance a p := by
  obtain ⟨ha1, ha2⟩ := hva
  obtain ⟨hp1, hp2⟩ := hvp
  unfold manhattan_distance Nat.dist at h
  by_cases h1 : p.1 < a.1
  · refine ⟨(p.1 + 1, p.2), ⟨?_, ?_⟩, ?_, ?_⟩ <;>
      simp only [manhattan_distance, Nat.dist, validPos] <;> omega
  by_cases h2 : a.1 < p.1
  · refine ⟨(p.1 - 1, p.2), ⟨?_, ?_⟩, ?_, ?_⟩ <;>
      simp only [manhattan_distance, Nat.dist, validPos] <;> omega
  by_cases h3 : p.2 < a.2
  · refine ⟨(p.1, p.2 + 1), ⟨?_, ?_⟩, ?_, ?_⟩ <;>
      simp only [manhattan_distance, Nat.dist, validPos] <;> omega
  · refine ⟨(p.1, p.2 - 1), ⟨?_, ?_⟩, ?_, ?_⟩ <;>
      simp only [manhattan_distance, Nat.dist, validPos] <;> omega

theorem onRect_start (hvs : validPos numRows startP) :
    onRect numRows startP endP startP := by
  refine ⟨hvs, ?_⟩
  rw [man_self]
  omega

theorem onRect_end (hve : validPos numRows endP) :
    onRect numRows startP endP endP := by
  refine ⟨hve, ?_⟩
  rw [man_self]
  omega

/-- Every rectangle cell other than the end has a rectangle neighbor one
layer further from the start. -/
theorem rect_forward (hve : validPos numRows endP) {u : Pos}
    (hu : onRect numRows startP endP u) (hne : u ≠ endP) :
    ∃ q, onRect numRows startP endP q ∧ manhattan_distance u q = 1 ∧
      manhattan_distance startP q = manhattan_distance startP u + 1 := by
  have hd : 0 < manhattan_distance endP u := by
    rcases Nat.eq_zero_or_pos (manhattan_distance endP u) with h0 | h0
    · exact absurd (man_eq_zero h0).symm hne
    · exact h0
  obtain ⟨q, hvq, hpq, hq⟩ := move_toward hve hu.1 hd
  have hu2 := hu.2
  have htri1 := man_triangle startP u q
  have htri2 := man_triangle startP q endP
  have hc1 : manhattan_distance u endP = manhattan_distance endP u := man_comm _ _
  have hc2 : manhattan_distance q endP = manhattan_distance endP q := man_comm _ _
  refine ⟨q, ⟨hvq, by omega⟩, hpq, by omega⟩

/-- Every rectangle cell other than the start has a rectangle neighbor one
layer closer to the start. -/
theorem rect_parent (hvs : validPos numRows startP) {w : Pos}
    (hw : onRect numRows startP endP w) (hne : w ≠ startP) :
    ∃ x, onRect numRows startP endP x ∧ manhattan_distance x w = 1 ∧
      manhattan_distance startP x + 1 = manhattan_distance startP w := by
  have hd : 0 < manhattan_distance startP w := by
    rcases Nat.eq_zero_or_pos (manhattan_distance startP w) with h0 | h0
    · exact absurd (man_eq_zero h0).symm hne
    · exact h0
  obtain ⟨x, hvx, hpx, hx⟩ := move_toward hvs hw.1 hd
  have hw2 := hw.2
  have htri1 := man_triangle x w endP
  have htri2 := man_triangle startP x endP
  have hc1 : manhattan_distance x w = manhattan_distance w x := man_comm _ _
  refine ⟨x, ⟨hvx, by omega⟩, by omega, hx⟩

theorem exists_max_nat {α : Type} (f : α → Nat) :
    ∀ {l : List α}, l ≠ [] → ∃ a ∈ l, ∀ b ∈ l, f b ≤ f a := by
  intro l
  induction l with
  | nil => intro h; exact absurd rfl h
  | cons x xs ih =>
    intro _
    by_cases hxs : xs = []
    · subst hxs
      refine ⟨x, List.mem_singleton.mpr rfl, ?_⟩
      intro b hb
      rw [List.mem_singleton.mp hb]
    · obtain ⟨a, ha, hmax⟩ := ih hxs
      by_cases hc : f x ≤ f a
      · refine ⟨a, List.mem_cons_of_mem _ ha, ?_⟩
        intro b hb
        rcases List.mem_cons.mp hb with rfl | hb2
        · exact hc
        · exact hmax b hb2
      · refine ⟨x, List.mem_cons_self _ _, ?_⟩
        intro b hb
        rcases List.mem_cons.mp hb with rfl | hb2
        · exact Nat.le_refl _
        · exact Nat.le_trans (hmax b hb2) (by omega)

theorem man_le_square (hvs : validPos numRows startP) (hve : validPos numRows endP) :
    manhattan_distance startP endP ≤ numRows * numRows := by
  obtain ⟨h1, h2⟩ := hvs
  obtain ⟨h3, h4⟩ := hve
  cases numRows with
  | zero => omega
  | succ n =>
    have hsq : (n + 1) * (n + 1) = n * n + 2 * n + 1 := by ring
    unfold manhattan_distance Nat.dist
    omega

theorem length_gridPositions (n : Nat) : (gridPositions n).length = n * n := by
  unfold gridPositions
  rw [List.length_flatMap]
  have hmap : (List.range n).map (List.length ∘ fun r => (List.range n).map fun c => (r, c)) =
      (List.range n).map (fun _ => n) := by
    refine List.map_congr_left ?_
    intro r _
    simp
  rw [hmap, List.map_const', List.sum_replicate, List.length_range, smul_eq_mul]

/-- The optimality invariant holds of the state generate_path builds before
its loop. -/
theorem ainv_init (hvs : validPos numRows startP) (colors0 : Pos → NodeColor) :
    AInv numRows startP endP none (initState startP endP colors0) := by
  refine ⟨List.Perm.refl _, by simp [initState], by simp [initState], ?_, by
      simp [initState, upd], rfl, ?_, ?_, ?_, ?_, fun _ => rfl, ?_, ?_,
      List.nodup_nil, ?_, List.not_mem_nil _, ?_, ?_, ?_, ?_, ?_, ?_, ?_⟩
  · intro e he
    rw [List.mem_singleton.mp he]
    exact Nat.le_refl _
  · intro p k hk
    by_cases h : p = startP
    · rw [h] at hk
      rw [show (initState startP endP colors0).g_score startP = some 0 from by
        simp [initState, upd]] at hk
      cases hk
      rw [h, man_self]
      exact ⟨hvs, Nat.le_refl 0⟩
    · have h2 : (initState startP endP colors0).g_score p = none :=
        upd_other (fun _ => (none : Option Nat)) (some 0) h
      rw [h2] at hk
      cases hk
  · intro p k _ hk
    by_cases h : p = startP
    · rw [h] at hk
      rw [show (initState startP endP colors0).g_score startP = some 0 from by
        simp [initState, upd]] at hk
      cases hk
      rw [h, man_self]
    · have h2 : (initState startP endP colors0).g_score p = none :=
        upd_other (fun _ => (none : Option Nat)) (some 0) h
      rw [h2] at hk
      cases hk
  · intro e he hne
    rw [List.mem_singleton.mp he] at hne
    exact absurd rfl hne
  · intro e he _
    exact ⟨List.mem_singleton.mp he, rfl⟩
  · intro h
    exact absurd rfl h
  · intro p hp
    cases hp
  · intro p hp
    cases hp
  · intro w _ hex
    obtain ⟨p, hp, _⟩ := hex
    cases hp
  · intro v hv
    by_cases h : v = startP
    · subst h
      exact Or.inr (by simp [initState])
    · exact absurd (upd_other (fun _ => none) (some 0) h) hv
  · intro e he hne _
    rw [List.mem_singleton.mp he] at hne
    exact absurd rfl hne
  · intro e1 he1 e2 _ hn1 _ _ _ _
    rw [List.mem_singleton.mp he1] at hn1
    exact absurd rfl hn1
  · intro p hp
    cases hp
  · intro v _ hne hv
    by_cases h : v = startP
    · exact absurd h hne
    · exact absurd (upd_other (fun _ => none) (some 0) h) hv
  · intro p hp
    cases hp

/-- Every frontier entry names a discovered node. -/
theorem ainv_queueDisc {ex : Option Pos} {s : SearchState}
    (hinv : AInv numRows startP endP ex s) :
    ∀ x ∈ s.open_set, s.g_score x.2.2 ≠ none := by
  intro x hx
  by_cases h : x.2.2 = startP
  · rw [h, hinv.gScoreStart]
    simp
  · obtain ⟨_, k, hk, _⟩ := hinv.entryBound x hx h
    rw [hk]
    simp

/-- As long as the end is not popped and something is popped, the frontier
holds an entry for a rectangle node strictly deeper than everything popped,
carrying the optimal key. -/
theorem rect_front (hve : validPos numRows endP) {s : SearchState}
    (hinv : AInv numRows startP endP none s) (hnp : s.popped ≠ []) :
    ∃ y ∈ s.open_set, y.2.2 ≠ startP ∧ onRect numRows startP endP y.2.2 ∧
      y.1 = manhattan_distance startP endP ∧
      ∀ p ∈ s.popped,
        manhattan_distance startP p < manhattan_distance startP y.2.2 := by
  obtain ⟨u, hu, hmax⟩ := exists_max_nat (fun p => manhattan_distance startP p) hnp
  obtain ⟨hur, _⟩ := hinv.poppedRect u hu
  have hune : u ≠ endP := fun h => hinv.endNotPopped (h ▸ hu)
  obtain ⟨q, hqr, huq, hql⟩ := rect_forward hve hur hune
  have hqn : q ∈ nbrsOf numRows noBarrier u :=
    (mem_nbrsOf_noBarrier hur.1).mpr ⟨hqr.1, huq⟩
  have hqd : s.g_score q ≠ none := hinv.poppedNbrsDisc u hu (by simp) q hqn
  have hqs : q ≠ startP := by
    intro h
    rw [h, man_self] at hql
    omega
  rcases hinv.discIn q hqd with hqp | hqq
  · have := hmax q hqp
    omega
  · obtain ⟨y, hy, hye⟩ := List.mem_map.mp hqq
    have hye2 : y.2.2 = q := hye
    refine ⟨y, hy, ?_, ?_, ?_, ?_⟩
    · rw [hye2]; exact hqs
    · rw [hye2]; exact hqr
    · exact hinv.rectEntryKey y hy (by rw [hye2]; exact hqs) (by rw [hye2]; exact hqr)
    · intro p hp
      have h1 := hmax p hp
      rw [hye2]
      omega

/-- Under the optimality invariant the frontier is never empty (the end has
not been popped yet). -/
theorem ainv_queue_ne_nil (hve : validPos numRows endP) {s : SearchState}
    (hinv : AInv numRows startP endP none s) : s.open_set ≠ [] := by
  by_cases hp : s.popped = []
  · rw [hinv.startState hp]
    exact List.cons_ne_nil _ _
  · obtain ⟨y, hy, _⟩ := rect_front hve hinv hp
    exact List.ne_nil_of_mem hy

/-- Analysis of a minimal-key pop: the popped node is a rectangle node with
optimal g_score, at least as deep as everything popped before it and at most
as deep as every remaining rectangle entry, and every rectangle cell up to
its layer is already discovered. -/
theorem ainv_pop_analysis (hvs : validPos numRows startP)
    (hve : validPos numRows endP) {s : SearchState}
    (hinv : AInv numRows startP endP none s)
    {e : Entry} (hm : e ∈ s.open_set)
    (hmin : ∀ x ∈ s.open_set, keyLeB (entryKey e) (entryKey x) = true) :
    onRect numRows startP endP e.2.2 ∧
    s.g_score e.2.2 = some (manhattan_distance startP e.2.2) ∧
    (∀ p ∈ s.popped, manhattan_distance startP p ≤ manhattan_distance startP e.2.2) ∧
    (∀ w, onRect numRows startP endP w →
      manhattan_distance startP w ≤ manhattan_distance startP e.2.2 →
      s.g_score w ≠ none) ∧
    (∀ x ∈ s.open_set, x ≠ e → x.2.2 ≠ startP → onRect numRows startP endP x.2.2 →
      manhattan_distance startP e.2.2 ≤ manhattan_distance startP x.2.2) := by
  by_cases hstart : e.2.2 = startP
  · obtain ⟨_, hp0⟩ := hinv.startEntry e hm hstart
    refine ⟨?_, ?_, ?_, ?_, ?_⟩
    · rw [hstart]
      exact onRect_start hvs
    · rw [hstart, hinv.gScoreStart, man_self]
    · intro p hp
      rw [hp0] at hp
      cases hp
    · intro w _ hle
      rw [hstart, man_self] at hle
      have hw0 : w = startP := (man_eq_zero (Nat.le_zero.mp hle)).symm
      rw [hw0, hinv.gScoreStart]
      simp
    · intro x _ _ _ _
      rw [hstart, man_self]
      omega
  · have hpn : s.popped ≠ [] := by
      intro hp0
      have h := hinv.startState hp0
      rw [h] at hm
      exact hstart (congrArg (fun z => z.2.2) (List.mem_singleton.mp hm))
    obtain ⟨y, hy, _, _, hyk, _⟩ := rect_front hve hinv hpn
    have hkey := hmin y hy
    unfold keyLeB entryKey at hkey
    simp only [Bool.or_eq_true, Bool.and_eq_true, decide_eq_true_eq] at hkey
    rw [hyk] at hkey
    have hle : e.1 ≤ manhattan_distance startP endP := by omega
    obtain ⟨hb1, k, hk, hb2⟩ := hinv.entryBound e hm hstart
    obtain ⟨hvcur, hglb⟩ := hinv.gLB e.2.2 k hk
    have htri := man_triangle startP e.2.2 endP
    have hrect : onRect numRows startP endP e.2.2 := ⟨hvcur, by omega⟩
    have hkeyopt : e.1 = manhattan_distance startP endP := by omega
    have hgopt : k = manhattan_distance startP e.2.2 := by omega
    have hgcur : s.g_score e.2.2 = some (manhattan_distance startP e.2.2) := by
      rw [hk, hgopt]
    have hdep : ∀ p ∈ s.popped,
        manhattan_distance startP p ≤ manhattan_distance startP e.2.2 :=
      fun p hp => hinv.depthLe p hp e hm hstart hrect
    refine ⟨hrect, hgcur, hdep, ?_, ?_⟩
    · intro w hw hle2
      by_cases hws : w = startP
      · rw [hws, hinv.gScoreStart]
        simp
      · have hwpos : 0 < manhattan_distance startP w := by
          rcases Nat.eq_zero_or_pos (manhattan_distance startP w) with h0 | h0
          · exact absurd (man_eq_zero h0).symm hws
          · exact h0
        obtain ⟨x0, _, hx0p, hx0d⟩ :=
          hinv.originChain e.2.2 hrect hstart (by rw [hgcur]; simp)
        by_cases hlt : manhattan_distance startP w < manhattan_distance startP e.2.2
        · exact hinv.discELe w hw ⟨x0, hx0p, by omega⟩
        · have heq : manhattan_distance startP w =
              manhattan_distance startP e.2.2 := by omega
          obtain ⟨x, hxr, hxw, hxd⟩ := rect_parent hvs hw hws
          have hxdisc : s.g_score x ≠ none :=
            hinv.discELe x hxr ⟨x0, hx0p, by omega⟩
          have hwadj : w ∈ nbrsOf numRows noBarrier x :=
            (mem_nbrsOf_noBarrier hxr.1).mpr ⟨hw.1, hxw⟩
          by_cases hxs : x = startP
          · have hxp : x ∈ s.popped := hxs ▸ hinv.startPopped hpn
            exact hinv.poppedNbrsDisc x hxp (by simp) w hwadj
          · rcases hinv.discIn x hxdisc with hxp | hxq
            · exact hinv.poppedNbrsDisc x hxp (by simp) w hwadj
            · exfalso
              obtain ⟨ex, hex, hexq⟩ := List.mem_map.mp hxq
              have hexe : ex.2.2 = x := hexq
              have hexs : ex.2.2 ≠ startP := by rw [hexe]; exact hxs
              have hexr : onRect numRows startP endP ex.2.2 := by
                rw [hexe]; exact hxr
              have hexk : ex.1 = manhattan_distance startP endP :=
                hinv.rectEntryKey ex hex hexs hexr
              have hxlt : manhattan_distance startP ex.2.2 <
                  manhattan_distance startP e.2.2 := by
                rw [hexe]; omega
              have hco := hinv.countOrder ex hex e hm hexs hstart hexr hrect hxlt
              have hkey2 := hmin ex hex
              unfold keyLeB entryKey at hkey2
              simp only [Bool.or_eq_true, Bool.and_eq_true,
                decide_eq_true_eq] at hkey2
              rw [hexk, hkeyopt] at hkey2
              omega
    · intro x hx hne hxs hxr
      by_contra hcon
      push_neg at hcon
      have hxk := hinv.rectEntryKey x hx hxs hxr
      have hco := hinv.countOrder x hx e hm hxs hstart hxr hrect hcon
      have hkey2 := hmin x hx
      unfold keyLeB entryKey at hkey2
      simp only [Bool.or_eq_true, Bool.and_eq_true, decide_eq_true_eq] at hkey2
      rw [hxk, hkeyopt] at hkey2
      omega

/-- Popping the minimal entry preserves the optimality invariant, with the
popped node recorded as the relaxation pass in progress. -/
theorem ainv_popState (hvs : validPos numRows startP) (hve : validPos numRows endP)
    {s : SearchState} (hinv : AInv numRows startP endP none s)
    {e : Entry} (hm : e ∈ s.open_set)
    (hmin : ∀ x ∈ s.open_set, keyLeB (entryKey e) (entryKey x) = true)
    (hcne : e.2.2 ≠ endP) :
    AInv numRows startP endP (some e.2.2) (popState s e) ∧
    onRect numRows startP endP e.2.2 ∧
    e.2.2 ∈ (popState s e).popped ∧
    (popState s e).g_score e.2.2 = some (manhattan_distance startP e.2.2) ∧
    (∀ p ∈ (popState s e).popped,
      manhattan_distance startP p ≤ manhattan_distance startP e.2.2) := by
  obtain ⟨hrect, hgcur, hdep, hELe, hdeeper⟩ := ainv_pop_analysis hvs hve hinv hm hmin
  have hcurq : e.2.2 ∈ s.open_set.map fun x => x.2.2 := List.mem_map_of_mem _ hm
  have hcurp : e.2.2 ∉ s.popped := fun h => hinv.poppedNotInQueue e.2.2 h hcurq
  have hmapE : (s.open_set.erase e).map (fun x => x.2.2) =
      (s.open_set.map fun x => x.2.2).erase e.2.2 :=
    map_erase_of_nodup hinv.queueNodesNodup hm
  have hmapC : (s.open_set.erase e).map (fun x => x.2.1) =
      (s.open_set.map fun x => x.2.1).erase e.2.1 :=
    map_erase_of_nodup hinv.countsNodup hm
  refine ⟨⟨?_, ?_, ?_, ?_, ?_, ?_, ?_, ?_, ?_, ?_, ?_, ?_, ?_, ?_, ?_, ?_, ?_, ?_,
    ?_, ?_, ?_, ?_, ?_⟩, hrect, ?_, ?_, ?_⟩
  · show (s.open_set_hash.erase e.2.2).Perm ((s.open_set.erase e).map fun x => x.2.2)
    rw [hmapE]
    exact perm_erase_pos e.2.2 hinv.hashNodes
  · show ((s.open_set.erase e).map fun x => x.2.2).Nodup
    rw [hmapE]
    exact hinv.queueNodesNodup.erase e.2.2
  · show ((s.open_set.erase e).map fun x => x.2.1).Nodup
    rw [hmapC]
    exact hinv.countsNodup.erase e.2.1
  · intro x hx
    exact hinv.countsLe x (List.mem_of_mem_erase hx)
  · exact hinv.gScoreStart
  · exact hinv.originStart
  · exact hinv.gLB
  · exact hinv.rectOpt
  · intro x hx hxs
    exact hinv.entryBound x (List.mem_of_mem_erase hx) hxs
  · intro x hx hxs
    obtain ⟨hxe, hp0⟩ := hinv.startEntry x (List.mem_of_mem_erase hx) hxs
    have h2 := hinv.startState hp0
    have hm2 := hm
    rw [h2] at hm2
    have he2 : e = (0, 0, startP) := List.mem_singleton.mp hm2
    have hx2 : x ∈ s.open_set.erase e := hx
    rw [h2, hxe, he2] at hx2
    simp at hx2
  · intro h
    have h2 : s.popped ++ [e.2.2] = [] := h
    simp at h2
  · intro _
    by_cases hp : s.popped = []
    · have h2 := hinv.startState hp
      have hm2 := hm
      rw [h2] at hm2
      have he2 : e = (0, 0, startP) := List.mem_singleton.mp hm2
      show startP ∈ s.popped ++ [e.2.2]
      rw [he2]
      exact List.mem_append.mpr (Or.inr (List.mem_singleton.mpr rfl))
    · show startP ∈ s.popped ++ [e.2.2]
      exact List.mem_append.mpr (Or.inl (hinv.startPopped hp))
  · intro p hp
    rcases List.mem_append.mp hp with h | h
    · exact hinv.poppedRect p h
    · rw [List.mem_singleton.mp h]
      exact ⟨hrect, hgcur⟩
  · show (s.popped ++ [e.2.2]).Nodup
    refine List.nodup_append.mpr ⟨hinv.poppedNodup, List.nodup_singleton _, ?_⟩
    intro x hx1 hx2
    rw [List.mem_singleton.mp hx2] at hx1
    exact hcurp hx1
  · intro p hp hq
    have hq2 : p ∈ (s.open_set.map fun x => x.2.2).erase e.2.2 := by
      rw [← hmapE]
      exact hq
    rcases List.mem_append.mp hp with h | h
    · exact hinv.poppedNotInQueue p h (List.mem_of_mem_erase hq2)
    · rw [List.mem_singleton.mp h] at hq2
      exact List.Nodup.not_mem_erase hinv.queueNodesNodup hq2
  · intro h
    rcases List.mem_append.mp h with h1 | h1
    · exact hinv.endNotPopped h1
    · exact hcne (List.mem_singleton.mp h1).symm
  · intro w hw hex
    obtain ⟨p, hp, hple⟩ := hex
    rcases List.mem_append.mp hp with h | h
    · exact hinv.discELe w hw ⟨p, h, hple⟩
    · rw [List.mem_singleton.mp h] at hple
      exact hELe w hw hple
  · intro v hv
    rcases hinv.discIn v hv with h | h
    · exact Or.inl (List.mem_append.mpr (Or.inl h))
    · by_cases hvc : v = e.2.2
      · exact Or.inl (List.mem_append.mpr (Or.inr (List.mem_singleton.mpr hvc)))
      · refine Or.inr ?_
        show v ∈ (s.open_set.erase e).map fun x => x.2.2
        rw [hmapE]
        exact (List.mem_erase_of_ne hvc).mpr h
  · intro x hx hxs hxr
    exact hinv.rectEntryKey x (List.mem_of_mem_erase hx) hxs hxr
  · intro e1 he1 e2 he2 hn1 hn2 hr1 hr2 hlt
    exact hinv.countOrder e1 (List.mem_of_mem_erase he1) e2
      (List.mem_of_mem_erase he2) hn1 hn2 hr1 hr2 hlt
  · intro p hp x hx hxs hxr
    have hx2 : x ∈ s.open_set := List.mem_of_mem_erase hx
    rcases List.mem_append.mp hp with h | h
    · exact hinv.depthLe p h x hx2 hxs hxr
    · rw [List.mem_singleton.mp h]
      by_cases hxe : x = e
      · rw [hxe]
      · exact hdeeper x hx2 hxe hxs hxr
  · intro v hvr hvs2 hvd
    obtain ⟨x, h1, h2, h3⟩ := hinv.originChain v hvr hvs2 hvd
    exact ⟨x, h1, List.mem_append.mpr (Or.inl h2), h3⟩
  · intro p hp hex v hv
    have hpc : p ≠ e.2.2 := fun h => hex (congrArg some h)
    rcases List.mem_append.mp hp with h | h
    · exact hinv.poppedNbrsDisc p h (by simp) v hv
    · exact absurd (List.mem_singleton.mp h) hpc
  · show e.2.2 ∈ s.popped ++ [e.2.2]
    exact List.mem_append.mpr (Or.inr (List.mem_singleton.mpr rfl))
  · exact hgcur
  · intro p hp
    rcases List.mem_append.mp hp with h | h
    · exact hdep p h
    · rw [List.mem_singleton.mp h]

/-- A successful relaxation of an already discovered neighbor (necessarily
off the rectangle) of the node being expanded preserves the optimality
invariant. -/
theorem ainv_relaxSet_aux {cur nP : Pos} {s : SearchState}
    (hinv : AInv numRows startP endP (some cur) s)
    (hcp : cur ∈ s.popped)
    (hvn : validPos numRows nP)
    (hns : nP ≠ startP)
    (htri : manhattan_distance startP nP ≤ manhattan_distance startP cur + 1)
    (hnrect : ¬ onRect numRows startP endP nP)
    (hnpop : nP ∉ s.popped)
    {k : Nat} (hgn : s.g_score nP = some k)
    (hlt : manhattan_distance startP cur + 1 < k) :
    AInv numRows startP endP (some cur)
      (relaxSet endP cur s nP (manhattan_distance startP cur)) := by
  refine ⟨hinv.hashNodes, hinv.queueNodesNodup, hinv.countsNodup, hinv.countsLe,
    ?_, ?_, ?_, ?_, ?_, hinv.startEntry, hinv.startState, hinv.startPopped, ?_,
    hinv.poppedNodup, hinv.poppedNotInQueue, hinv.endNotPopped, ?_, ?_,
    hinv.rectEntryKey, hinv.countOrder, hinv.depthLe, ?_, ?_⟩
  · show upd s.g_score nP (some (manhattan_distance startP cur + 1)) startP = some 0
    rw [upd_other _ _ (Ne.symm hns)]
    exact hinv.gScoreStart
  · show upd s.origin nP (some cur) startP = none
    rw [upd_other _ _ (Ne.symm hns)]
    exact hinv.originStart
  · intro p k2 hk
    have hk2 : upd s.g_score nP (some (manhattan_distance startP cur + 1)) p =
        some k2 := hk
    by_cases hpn : p = nP
    · rw [hpn] at hk2 ⊢
      rw [upd_same] at hk2
      cases hk2
      exact ⟨hvn, htri⟩
    · rw [upd_other _ _ hpn] at hk2
      exact hinv.gLB p k2 hk2
  · intro p k2 hr hk
    have hk2 : upd s.g_score nP (some (manhattan_distance startP cur + 1)) p =
        some k2 := hk
    by_cases hpn : p = nP
    · rw [hpn] at hr
      exact absurd hr hnrect
    · rw [upd_other _ _ hpn] at hk2
      exact hinv.rectOpt p k2 hr hk2
  · intro x hx hxs
    obtain ⟨hb1, k0, hk0, hb2⟩ := hinv.entryBound x hx hxs
    refine ⟨hb1, ?_⟩
    by_cases hpn : x.2.2 = nP
    · refine ⟨manhattan_distance startP cur + 1, ?_, ?_⟩
      · show upd s.g_score nP (some (manhattan_distance startP cur + 1)) x.2.2 =
          some (manhattan_distance startP cur + 1)
        rw [hpn, upd_same]
      · rw [hpn] at hk0
        rw [hgn] at hk0
        cases hk0
        rw [hpn] at hb2 ⊢
        omega
    · refine ⟨k0, ?_, hb2⟩
      show upd s.g_score nP (some (manhattan_distance startP cur + 1)) x.2.2 = some k0
      rw [upd_other _ _ hpn]
      exact hk0
  · intro p hp
    obtain ⟨hr, hg2⟩ := hinv.poppedRect p hp
    refine ⟨hr, ?_⟩
    have hpn : p ≠ nP := fun h => hnpop (h ▸ hp)
    show upd s.g_score nP (some (manhattan_distance startP cur + 1)) p =
      some (manhattan_distance startP p)
    rw [upd_other _ _ hpn]
    exact hg2
  · intro w hw hex
    have h := hinv.discELe w hw hex
    show upd s.g_score nP (some (manhattan_distance startP cur + 1)) w ≠ none
    by_cases hpn : w = nP
    · rw [hpn, upd_same]
      simp
    · rw [upd_other _ _ hpn]
      exact h
  · intro v hv
    have hv2 : upd s.g_score nP (some (manhattan_distance startP cur + 1)) v ≠
        none := hv
    by_cases hpn : v = nP
    · rw [hpn]
      exact hinv.discIn nP (by rw [hgn]; simp)
    · rw [upd_other _ _ hpn] at hv2
      exact hinv.discIn v hv2
  · intro v hvr hvs2 hvd
    have hvd2 : upd s.g_score nP (some (manhattan_distance startP cur + 1)) v ≠
        none := hvd
    by_cases hpn : v = nP
    · rw [hpn] at hvr
      exact absurd hvr hnrect
    · rw [upd_other _ _ hpn] at hvd2
      obtain ⟨x, h1, h2, h3⟩ := hinv.originChain v hvr hvs2 hvd2
      refine ⟨x, ?_, h2, h3⟩
      show upd s.origin nP (some cur) v = some x
      rw [upd_other _ _ hpn]
      exact h1
  · intro p hp hex v hv
    have h := hinv.poppedNbrsDisc p hp hex v hv
    show upd s.g_score nP (some (manhattan_distance startP cur + 1)) v ≠ none
    by_cases hpn : v = nP
    · rw [hpn, upd_same]
      simp
    · rw [upd_other _ _ hpn]
      exact h

/-- A successful relaxation that pushes its neighbor onto the frontier
preserves the optimality invariant: if the neighbor lies on the rectangle
it sits exactly one layer beyond the node being expanded, so its stored key
is the optimal f value and its count respects the layer order. -/
theorem ainv_relaxPush_aux {cur nP : Pos} {s : SearchState}
    (hinv : AInv numRows startP endP (some cur) s)
    (hcp : cur ∈ s.popped)
    (hdepth : ∀ p ∈ s.popped,
      manhattan_distance startP p ≤ manhattan_distance startP cur)
    (hvn : validPos numRows nP)
    (hns : nP ≠ startP)
    (htri : manhattan_distance startP nP ≤ manhattan_distance startP cur + 1)
    (hlayer : onRect numRows startP endP nP →
      manhattan_distance startP nP = manhattan_distance startP cur + 1)
    (hnpop : nP ∉ s.popped)
    (hnq : nP ∉ s.open_set.map fun x => x.2.2) :
    AInv numRows startP endP (some cur)
      (relaxPush endP cur s nP (manhattan_distance startP cur)) := by
  have hdeep : ∀ x ∈ s.open_set, x.2.2 ≠ startP → onRect numRows startP endP x.2.2 →
      manhattan_distance startP x.2.2 ≤ manhattan_distance startP cur + 1 := by
    intro x hx hxs hxr
    obtain ⟨_, k0, hk0, _⟩ := hinv.entryBound x hx hxs
    obtain ⟨x0, _, hx0p, hx0d⟩ := hinv.originChain x.2.2 hxr hxs (by rw [hk0]; simp)
    have := hdepth x0 hx0p
    omega
  refine ⟨?_, ?_, ?_, ?_, ?_, ?_, ?_, ?_, ?_, ?_, ?_, ?_, ?_,
    hinv.poppedNodup, ?_, hinv.endNotPopped, ?_, ?_, ?_, ?_, ?_, ?_, ?_⟩
  · show (nP :: s.open_set_hash).Perm
      ((s.open_set ++ [(manhattan_distance startP cur + 1 + manhattan_distance nP endP,
        s.count + 1, nP)]).map fun x => x.2.2)
    rw [List.map_append]
    exact (hinv.hashNodes.cons nP).trans (List.perm_append_singleton nP _).symm
  · show ((s.open_set ++ [(manhattan_distance startP cur + 1 + manhattan_distance nP endP,
      s.count + 1, nP)]).map fun x => x.2.2).Nodup
    rw [List.map_append]
    refine List.nodup_append.mpr ⟨hinv.queueNodesNodup, List.nodup_singleton _, ?_⟩
    intro x hx1 hx2
    have hx3 : x = nP := List.mem_singleton.mp hx2
    rw [hx3] at hx1
    exact hnq hx1
  · show ((s.open_set ++ [(manhattan_distance startP cur + 1 + manhattan_distance nP endP,
      s.count + 1, nP)]).map fun x => x.2.1).Nodup
    rw [List.map_append]
    refine List.nodup_append.mpr ⟨hinv.countsNodup, List.nodup_singleton _, ?_⟩
    intro c hc1 hc2
    have hc3 : c = s.count + 1 := List.mem_singleton.mp hc2
    obtain ⟨x, hx, hxe⟩ := List.mem_map.mp hc1
    have hxe2 : x.2.1 = c := hxe
    have := hinv.countsLe x hx
    omega
  · intro x hx
    show x.2.1 ≤ s.count + 1
    rcases List.mem_append.mp hx with h | h
    · exact Nat.le_trans (hinv.countsLe x h) (Nat.le_succ _)
    · rw [List.mem_singleton.mp h]
  · show upd s.g_score nP (some (manhattan_distance startP cur + 1)) startP = some 0
    rw [upd_other _ _ (Ne.symm hns)]
    exact hinv.gScoreStart
  · show upd s.origin nP (some cur) startP = none
    rw [upd_other _ _ (Ne.symm hns)]
    exact hinv.originStart
  · intro p k2 hk
    have hk2 : upd s.g_score nP (some (manhattan_distance startP cur + 1)) p =
        some k2 := hk
    by_cases hpn : p = nP
    · rw [hpn] at hk2 ⊢
      rw [upd_same] at hk2
      cases hk2
      exact ⟨hvn, htri⟩
    · rw [upd_other _ _ hpn] at hk2
      exact hinv.gLB p k2 hk2
  · intro p k2 hr hk
    have hk2 : upd s.g_score nP (some (manhattan_distance startP cur + 1)) p =
        some k2 := hk
    by_cases hpn : p = nP
    · rw [hpn] at hr hk2 ⊢
      rw [upd_same] at hk2
      cases hk2
      exact (hlayer hr).symm
    · rw [upd_other _ _ hpn] at hk2
      exact hinv.rectOpt p k2 hr hk2
  · intro x hx hxs
    rcases List.mem_append.mp hx with h | h
    · obtain ⟨hb1, k0, hk0, hb2⟩ := hinv.entryBound x h hxs
      refine ⟨hb1, ?_⟩
      by_cases hpn : x.2.2 = nP
      · exfalso
        have hmm : x.2.2 ∈ s.open_set.map fun z => z.2.2 := List.mem_map_of_mem _ h
        rw [hpn] at hmm
        exact hnq hmm
      · refine ⟨k0, ?_, hb2⟩
        show upd s.g_score nP (some (manhattan_distance startP cur + 1)) x.2.2 =
          some k0
        rw [upd_other _ _ hpn]
        exact hk0
    · have hxe : x = (manhattan_distance startP cur + 1 + manhattan_distance nP endP,
        s.count + 1, nP) := List.mem_singleton.mp h
      subst hxe
      refine ⟨?_, manhattan_distance startP cur + 1, ?_, ?_⟩
      · show manhattan_distance startP nP + manhattan_distance nP endP ≤
          manhattan_distance startP cur + 1 + manhattan_distance nP endP
        omega
      · show upd s.g_score nP (some (manhattan_distance startP cur + 1)) nP =
          some (manhattan_distance startP cur + 1)
        rw [upd_same]
      · show manhattan_distance startP cur + 1 + manhattan_distance nP endP ≤
          manhattan_distance startP cur + 1 + manhattan_distance nP endP
        exact Nat.le_refl _
  · intro x hx hxs
    exfalso
    rcases List.mem_append.mp hx with h | h
    · obtain ⟨_, hp0⟩ := hinv.startEntry x h hxs
      rw [hp0] at hcp
      cases hcp
    · have hxe : x = (manhattan_distance startP cur + 1 + manhattan_distance nP endP,
        s.count + 1, nP) := List.mem_singleton.mp h
      rw [hxe] at hxs
      exact hns hxs
  · intro h
    exfalso
    have h2 : s.popped = [] := h
    rw [h2] at hcp
    cases hcp
  · intro _
    exact hinv.startPopped (List.ne_nil_of_mem hcp)
  · intro p hp
    obtain ⟨hr, hg2⟩ := hinv.poppedRect p hp
    refine ⟨hr, ?_⟩
    have hpn : p ≠ nP := fun h => hnpop (h ▸ hp)
    show upd s.g_score nP (some (manhattan_distance startP cur + 1)) p =
      some (manhattan_distance startP p)
    rw [upd_other _ _ hpn]
    exact hg2
  · intro p hp hq
    have hq2 : p ∈ (s.open_set ++
      [(manhattan_distance startP cur + 1 + manhattan_distance nP endP,
        s.count + 1, nP)]).map fun x => x.2.2 := hq
    rw [List.map_append] at hq2
    rcases List.mem_append.mp hq2 with h | h
    · exact hinv.poppedNotInQueue p hp h
    · have h2 : p ∈ [nP] := h
      rw [List.mem_singleton.mp h2] at hp
      exact hnpop hp
  · intro w hw hex
    have h := hinv.discELe w hw hex
    show upd s.g_score nP (some (manhattan_distance startP cur + 1)) w ≠ none
    by_cases hpn : w = nP
    · rw [hpn, upd_same]
      simp
    · rw [upd_other _ _ hpn]
      exact h
  · intro v hv
    have hv2 : upd s.g_score nP (some (manhattan_distance startP cur + 1)) v ≠
        none := hv
    by_cases hpn : v = nP
    · refine Or.inr ?_
      show v ∈ (s.open_set ++
        [(manhattan_distance startP cur + 1 + manhattan_distance nP endP,
          s.count + 1, nP)]).map fun x => x.2.2
      rw [List.map_append]
      refine List.mem_append.mpr (Or.inr ?_)
      rw [hpn]
      exact List.mem_singleton.mpr rfl
    · rw [upd_other _ _ hpn] at hv2
      rcases hinv.discIn v hv2 with h | h
      · exact Or.inl h
      · refine Or.inr ?_
        show v ∈ (s.open_set ++
          [(manhattan_distance startP cur + 1 + manhattan_distance nP endP,
            s.count + 1, nP)]).map fun x => x.2.2
        rw [List.map_append]
        exact List.mem_append.mpr (Or.inl h)
  · intro x hx hxs hxr
    rcases List.mem_append.mp hx with h | h
    · exact hinv.rectEntryKey x h hxs hxr
    · have hxe : x = (manhattan_distance startP cur + 1 + manhattan_distance nP endP,
        s.count + 1, nP) := List.mem_singleton.mp h
      subst hxe
      show manhattan_distance startP cur + 1 + manhattan_distance nP endP =
        manhattan_distance startP endP
      have hr2 : onRect numRows startP endP nP := hxr
      have hl := hlayer hr2
      have hre := hr2.2
      omega
  · intro e1 he1 e2 he2 hn1 hn2 hr1 hr2 hlt2
    rcases List.mem_append.mp he1 with h1 | h1
    · rcases List.mem_append.mp he2 with h2 | h2
      · exact hinv.countOrder e1 h1 e2 h2 hn1 hn2 hr1 hr2 hlt2
      · have hxe : e2 = (manhattan_distance startP cur + 1 + manhattan_distance nP endP,
          s.count + 1, nP) := List.mem_singleton.mp h2
        subst hxe
        show e1.2.1 < s.count + 1
        have := hinv.countsLe e1 h1
        omega
    · exfalso
      have hxe : e1 = (manhattan_distance startP cur + 1 + manhattan_distance nP endP,
        s.count + 1, nP) := List.mem_singleton.mp h1
      subst hxe
      have hr1b : onRect numRows startP endP nP := hr1
      have hl := hlayer hr1b
      have hlt3 : manhattan_distance startP nP < manhattan_distance startP e2.2.2 :=
        hlt2
      rcases List.mem_append.mp he2 with h2 | h2
      · have := hdeep e2 h2 hn2 hr2
        omega
      · have hxe2 : e2 = (manhattan_distance startP cur + 1 + manhattan_distance nP endP,
          s.count + 1, nP) := List.mem_singleton.mp h2
        rw [hxe2] at hlt3
        have hlt4 : manhattan_distance startP nP < manhattan_distance startP nP := hlt3
        omega
  · intro p hp x hx hxs hxr
    rcases List.mem_append.mp hx with h | h
    · exact hinv.depthLe p hp x h hxs hxr
    · have hxe : x = (manhattan_distance startP cur + 1 + manhattan_distance nP endP,
        s.count + 1, nP) := List.mem_singleton.mp h
      subst hxe
      have hr2 : onRect numRows startP endP nP := hxr
      have hl := hlayer hr2
      have hd2 := hdepth p hp
      show manhattan_distance startP p ≤ manhattan_distance startP nP
      omega
  · intro v hvr hvs2 hvd
    have hvd2 : upd s.g_score nP (some (manhattan_distance startP cur + 1)) v ≠
        none := hvd
    by_cases hpn : v = nP
    · refine ⟨cur, ?_, hcp, ?_⟩
      · show upd s.origin nP (some cur) v = some cur
        rw [hpn, upd_same]
      · rw [hpn] at hvr ⊢
        have hl := hlayer hvr
        omega
    · rw [upd_other _ _ hpn] at hvd2
      obtain ⟨x, h1, h2, h3⟩ := hinv.originChain v hvr hvs2 hvd2
      refine ⟨x, ?_, h2, h3⟩
      show upd s.origin nP (some cur) v = some x
      rw [upd_other _ _ hpn]
      exact h1
  · intro p hp hex v hv
    have h := hinv.poppedNbrsDisc p hp hex v hv
    show upd s.g_score nP (some (manhattan_distance startP cur + 1)) v ≠ none
    by_cases hpn : v = nP
    · rw [hpn, upd_same]
      simp
    · rw [upd_other _ _ hpn]
      exact h

/-- One neighbor relaxation from the expansion of a popped node preserves
the optimality invariant; afterwards the neighbor is discovered, discovery
is monotone, and the pop record is unchanged. -/
theorem ainv_relaxOne {cur : Pos} {s : SearchState}
    (hinv : AInv numRows startP endP (some cur) s)
    (hcp : cur ∈ s.popped)
    (hdepth : ∀ p ∈ s.popped,
      manhattan_distance startP p ≤ manhattan_distance startP cur)
    {nP : Pos} (hmem : nP ∈ nbrsOf numRows noBarrier cur) :
    AInv numRows startP endP (some cur) (relaxOne endP cur s nP) ∧
    (relaxOne endP cur s nP).g_score nP ≠ none ∧
    (∀ p, s.g_score p ≠ none → (relaxOne endP cur s nP).g_score p ≠ none) ∧
    (relaxOne endP cur s nP).popped = s.popped := by
  obtain ⟨hrectC, hgC⟩ := hinv.poppedRect cur hcp
  have hvc : validPos numRows cur := hrectC.1
  obtain ⟨hvn, hd1⟩ := (mem_nbrsOf_noBarrier hvc).mp hmem
  have htri : manhattan_distance startP nP ≤ manhattan_distance startP cur + 1 := by
    have h := man_triangle startP cur nP
    omega
  cases hb : betterB (manhattan_distance startP cur + 1) (s.g_score nP) with
  | false =>
    rw [relaxOne_stay hgC hb]
    refine ⟨hinv, ?_, fun p hp => hp, rfl⟩
    intro h
    rw [betterB_of_none h] at hb
    cases hb
  | true =>
    have hns : nP ≠ startP := relax_target_ne_start hinv.gScoreStart hb
    have hgnew : upd s.g_score nP (some (manhattan_distance startP cur + 1)) nP ≠
        none := by
      simp [upd]
    have hgmono : ∀ p, s.g_score p ≠ none →
        upd s.g_score nP (some (manhattan_distance startP cur + 1)) p ≠ none := by
      intro p hp
      by_cases hpn : p = nP
      · rw [hpn, upd_same]
        simp
      · rw [upd_other _ _ hpn]
        exact hp
    cases hgn : s.g_score nP with
    | some k =>
      have hlt : manhattan_distance startP cur + 1 < k := by
        rw [hgn] at hb
        simpa [betterB] using hb
      have hnrect : ¬ onRect numRows startP endP nP := by
        intro hr
        have hko := hinv.rectOpt nP k hr hgn
        omega
      have hnpop : nP ∉ s.popped := fun h => hnrect (hinv.poppedRect nP h).1
      by_cases hin : nP ∈ s.open_set_hash
      · rw [relaxOne_set hgC hb hin]
        exact ⟨ainv_relaxSet_aux hinv hcp hvn hns htri hnrect hnpop hgn hlt,
          hgnew, hgmono, rfl⟩
      · rw [relaxOne_push hgC hb hin]
        have hnq : nP ∉ s.open_set.map fun x => x.2.2 :=
          fun h => hin (hinv.hashNodes.mem_iff.mpr h)
        exact ⟨ainv_relaxPush_aux hinv hcp hdepth hvn hns htri
          (fun hr => absurd hr hnrect) hnpop hnq, hgnew, hgmono, rfl⟩
    | none =>
      have hnq : nP ∉ s.open_set.map fun x => x.2.2 := by
        intro hq
        obtain ⟨x, hx, hxe⟩ := List.mem_map.mp hq
        have hxe2 : x.2.2 = nP := hxe
        have hd2 := ainv_queueDisc hinv x hx
        rw [hxe2, hgn] at hd2
        exact hd2 rfl
      have hin : nP ∉ s.open_set_hash := fun h => hnq (hinv.hashNodes.mem_iff.mp h)
      have hnpop : nP ∉ s.popped := by
        intro h
        obtain ⟨_, hg2⟩ := hinv.poppedRect nP h
        rw [hgn] at hg2
        cases hg2
      have hlayer : onRect numRows startP endP nP →
          manhattan_distance startP nP = manhattan_distance startP cur + 1 := by
        intro hr
        rcases adj_layer startP hd1 with h | h
        · exact h
        · exact absurd hgn (hinv.discELe nP hr ⟨cur, hcp, by omega⟩)
      rw [relaxOne_push hgC hb hin]
      exact ⟨ainv_relaxPush_aux hinv hcp hdepth hvn hns htri hlayer hnpop hnq,
        hgnew, hgmono, rfl⟩

/-- The whole for-loop over the popped node's neighbors preserves the
optimality invariant and discovers every neighbor. -/
theorem ainv_relaxFold {cur : Pos} :
    ∀ (l : List Pos), (∀ v ∈ l, v ∈ nbrsOf numRows noBarrier cur) →
    ∀ {s : SearchState}, AInv numRows startP endP (some cur) s →
      cur ∈ s.popped →
      (∀ p ∈ s.popped, manhattan_distance startP p ≤ manhattan_distance startP cur) →
      AInv numRows startP endP (some cur) (l.foldl (relaxOne endP cur) s) ∧
      (∀ v ∈ l, (l.foldl (relaxOne endP cur) s).g_score v ≠ none) ∧
      (∀ p, s.g_score p ≠ none → (l.foldl (relaxOne endP cur) s).g_score p ≠ none) ∧
      (l.foldl (relaxOne endP cur) s).popped = s.popped := by
  intro l
  induction l with
  | nil =>
    intro _ s hinv _ _
    exact ⟨hinv, fun v hv => absurd hv (List.not_mem_nil v), fun p hp => hp, rfl⟩
  | cons a rest ih =>
    intro hsub s hinv hcp hdepth
    have ha : a ∈ nbrsOf numRows noBarrier cur := hsub a (List.mem_cons_self a rest)
    obtain ⟨hinv1, hda, hmono1, hpop1⟩ := ainv_relaxOne hinv hcp hdepth ha
    have hcp1 : cur ∈ (relaxOne endP cur s a).popped := by
      rw [hpop1]
      exact hcp
    have hdepth1 : ∀ p ∈ (relaxOne endP cur s a).popped,
        manhattan_distance startP p ≤ manhattan_distance startP cur := by
      intro p hp
      rw [hpop1] at hp
      exact hdepth p hp
    obtain ⟨hinv2, hrest, hmono2, hpop2⟩ :=
      ih (fun v hv => hsub v (List.mem_cons_of_mem a hv)) hinv1 hcp1 hdepth1
    rw [List.foldl_cons]
    refine ⟨hinv2, ?_, fun p hp => hmono2 p (hmono1 p hp), hpop2.trans hpop1⟩
    intro v hv
    rcases List.mem_cons.mp hv with h | h
    · rw [h]
      exact hmono2 a hda
    · exact hrest v h

theorem stepState_hash_eq (nbrs : Pos → List Pos) (sP eP : Pos)
    (s1 : SearchState) (curP : Pos) :
    (stepState nbrs sP eP s1 curP).open_set_hash =
      (relaxAll nbrs eP curP s1).open_set_hash := by
  by_cases h : curP = sP
  · simp only [stepState, if_pos h]
  · simp only [stepState, if_neg h]

theorem stepState_origin_eq (nbrs : Pos → List Pos) (sP eP : Pos)
    (s1 : SearchState) (curP : Pos) :
    (stepState nbrs sP eP s1 curP).origin = (relaxAll nbrs eP curP s1).origin := by
  by_cases h : curP = sP
  · simp only [stepState, if_pos h]
  · simp only [stepState, if_neg h]

theorem stepState_count_eq (nbrs : Pos → List Pos) (sP eP : Pos)
    (s1 : SearchState) (curP : Pos) :
    (stepState nbrs sP eP s1 curP).count = (relaxAll nbrs eP curP s1).count := by
  by_cases h : curP = sP
  · simp only [stepState, if_pos h]
  · simp only [stepState, if_neg h]

theorem stepState_popped_eq (nbrs : Pos → List Pos) (sP eP : Pos)
    (s1 : SearchState) (curP : Pos) :
    (stepState nbrs sP eP s1 curP).popped = (relaxAll nbrs eP curP s1).popped := by
  by_cases h : curP = sP
  · simp only [stepState, if_pos h]
  · simp only [stepState, if_neg h]

/-- The optimality invariant only reads the frontier, the membership set,
the score and origin maps, the counter and the pop record; two states
agreeing on those carry it together. -/
theorem ainv_fields_eq {ex : Option Pos} {s s' : SearchState}
    (h1 : s'.open_set = s.open_set) (h2 : s'.open_set_hash = s.open_set_hash)
    (h3 : s'.g_score = s.g_score) (h4 : s'.origin = s.origin)
    (h5 : s'.count = s.count) (h6 : s'.popped = s.popped)
    (hinv : AInv numRows startP endP ex s) : AInv numRows startP endP ex s' := by
  refine ⟨?_, ?_, ?_, ?_, ?_, ?_, ?_, ?_, ?_, ?_, ?_, ?_, ?_, ?_, ?_, ?_, ?_, ?_,
    ?_, ?_, ?_, ?_, ?_⟩
  · rw [h1, h2]
    exact hinv.hashNodes
  · rw [h1]
    exact hinv.queueNodesNodup
  · rw [h1]
    exact hinv.countsNodup
  · rw [h1, h5]
    exact hinv.countsLe
  · rw [h3]
    exact hinv.gScoreStart
  · rw [h4]
    exact hinv.originStart
  · rw [h3]
    exact hinv.gLB
  · rw [h3]
    exact hinv.rectOpt
  · rw [h1, h3]
    exact hinv.entryBound
  · rw [h1, h6]
    exact hinv.startEntry
  · rw [h1, h6]
    exact hinv.startState
  · rw [h6]
    exact hinv.startPopped
  · rw [h6, h3]
    exact hinv.poppedRect
  · rw [h6]
    exact hinv.poppedNodup
  · rw [h6, h1]
    exact hinv.poppedNotInQueue
  · rw [h6]
    exact hinv.endNotPopped
  · rw [h6, h3]
    exact hinv.discELe
  · rw [h3, h6, h1]
    exact hinv.discIn
  · rw [h1]
    exact hinv.rectEntryKey
  · rw [h1]
    exact hinv.countOrder
  · rw [h6, h1]
    exact hinv.depthLe
  · rw [h3, h4, h6]
    exact hinv.originChain
  · rw [h6, h3]
    exact hinv.poppedNbrsDisc

/-- Once every neighbor of the node in progress is discovered, the
invariant holds with no pass in progress. -/
theorem ainv_drop_ex {cur : Pos} {s : SearchState}
    (hinv : AInv numRows startP endP (some cur) s)
    (hnb : ∀ v ∈ nbrsOf numRows noBarrier cur, s.g_score v ≠ none) :
    AInv numRows startP endP none s := by
  refine ⟨hinv.hashNodes, hinv.queueNodesNodup, hinv.countsNodup, hinv.countsLe,
    hinv.gScoreStart, hinv.originStart, hinv.gLB, hinv.rectOpt, hinv.entryBound,
    hinv.startEntry, hinv.startState, hinv.startPopped, hinv.poppedRect,
    hinv.poppedNodup, hinv.poppedNotInQueue, hinv.endNotPopped, hinv.discELe,
    hinv.discIn, hinv.rectEntryKey, hinv.countOrder, hinv.depthLe,
    hinv.originChain, ?_⟩
  intro p hp _ v hv
  by_cases hpc : p = cur
  · rw [hpc] at hv
    exact hnb v hv
  · exact hinv.poppedNbrsDisc p hp (fun h => hpc (Option.some.inj h)) v hv

/-- A whole non-end loop iteration preserves the optimality invariant and
appends the popped node to the pop record. -/
theorem ainv_step (hvs : validPos numRows startP) (hve : validPos numRows endP)
    {s : SearchState} (hinv : AInv numRows startP endP none s)
    {e : Entry} (hm : e ∈ s.open_set)
    (hmin : ∀ x ∈ s.open_set, keyLeB (entryKey e) (entryKey x) = true)
    (hcne : e.2.2 ≠ endP) :
    AInv numRows startP endP none
      (stepState (nbrsOf numRows noBarrier) startP endP (popState s e) e.2.2) ∧
    (stepState (nbrsOf numRows noBarrier) startP endP (popState s e) e.2.2).popped =
      s.popped ++ [e.2.2] := by
  obtain ⟨hinv1, hrect, hcp1, hg1, hdep1⟩ := ainv_popState hvs hve hinv hm hmin hcne
  obtain ⟨hinv2, hnbrs, hmono2, hpop2⟩ :=
    ainv_relaxFold (nbrsOf numRows noBarrier e.2.2) (fun v hv => hv) hinv1 hcp1 hdep1
  have hinv3 : AInv numRows startP endP (some e.2.2)
      (relaxAll (nbrsOf numRows noBarrier) endP e.2.2 (popState s e)) := hinv2
  have hnbrs3 : ∀ v ∈ nbrsOf numRows noBarrier e.2.2,
      (relaxAll (nbrsOf numRows noBarrier) endP e.2.2 (popState s e)).g_score v ≠
        none := hnbrs
  have hinv4 := ainv_drop_ex hinv3 hnbrs3
  refine ⟨ainv_fields_eq (stepState_open_set _ _ _ _ _) (stepState_hash_eq _ _ _ _ _)
    (stepState_g_score _ _ _ _ _) (stepState_origin_eq _ _ _ _ _)
    (stepState_count_eq _ _ _ _ _) (stepState_popped_eq _ _ _ _ _) hinv4, ?_⟩
  rw [stepState_popped_eq]
  have hpop3 : (relaxAll (nbrsOf numRows noBarrier) endP e.2.2 (popState s e)).popped =
      (popState s e).popped := hpop2
  rw [hpop3]
  rfl

theorem chainLen_succ_none {origin : Pos → Option Pos} {cur : Pos} (f : Nat)
    (h : origin cur = none) : chainLen origin (f + 1) cur = 0 := by
  rw [chainLen, h]

theorem chainLen_succ_some {origin : Pos → Option Pos} {cur p : Pos} (f : Nat)
    (h : origin cur = some p) :
    chainLen origin (f + 1) cur = chainLen origin f p + 1 := by
  rw [chainLen, h]

/-- Under the optimality invariant the origin chain walked from a
discovered rectangle cell at layer k has exactly k links, for any fuel of
at least k. -/
theorem ainv_chainLen {s : SearchState}
    (hinv : AInv numRows startP endP none s) :
    ∀ (k : Nat) (v : Pos) (f : Nat), onRect numRows startP endP v →
      s.g_score v ≠ none → manhattan_distance startP v = k → k ≤ f →
      chainLen s.origin f v = k := by
  intro k
  induction k with
  | zero =>
    intro v f _ _ hm _
    have hv : v = startP := (man_eq_zero hm).symm
    subst hv
    cases f with
    | zero => rfl
    | succ f' => exact chainLen_succ_none f' hinv.originStart
  | succ n ih =>
    intro v f hr hd hm hf
    have hvs2 : v ≠ startP := by
      intro h
      rw [h, man_self] at hm
      omega
    obtain ⟨x, hox, hxp, hxd⟩ := hinv.originChain v hr hvs2 hd
    obtain ⟨hxr, hxg⟩ := hinv.poppedRect x hxp
    have hxm : manhattan_distance startP x = n := by omega
    cases f with
    | zero => exact absurd hf (Nat.not_succ_le_zero n)
    | succ f' =>
      rw [chainLen_succ_some f' hox]
      rw [ih x f' hxr (by rw [hxg]; simp) hxm (by omega)]

/-- The pop record never exceeds the number of grid cells. -/
theorem ainv_popped_le {ex : Option Pos} {s : SearchState}
    (hinv : AInv numRows startP endP ex s) :
    s.popped.length ≤ numRows * numRows := by
  have hsub : s.popped ⊆ gridPositions numRows := by
    intro p hp
    exact mem_gridPositions.mpr (hinv.poppedRect p hp).1.1
  have h := (hinv.poppedNodup.subperm hsub).length_le
  rw [length_gridPositions] at h
  exact h

/-- If the minimal entry names the end node, the run stops as Found in one
step and the reconstructed chain from the end has exactly the Manhattan
length. -/
theorem ainv_found_now (hvs : validPos numRows startP) (hve : validPos numRows endP)
    {s : SearchState} (hinv : AInv numRows startP endP none s)
    {e : Entry} (hne : s.open_set ≠ []) (hch : queueMin s.open_set = some e)
    (hm : e ∈ s.open_set)
    (hmin : ∀ x ∈ s.open_set, keyLeB (entryKey e) (entryKey x) = true)
    (hend : e.2.2 = endP) (t : Nat) :
    ∃ s', runWith queueMin (nbrsOf numRows noBarrier) startP endP noCancel 1 t s =
        RunResult.found s' ∧
      chainLen s'.origin (numRows * numRows) endP =
        manhattan_distance startP endP := by
  refine ⟨foundState startP endP (popState s e), ?_, ?_⟩
  · rw [runWith_succ (nbrsOf numRows noBarrier) startP endP 0 t hne rfl hch,
      if_pos hend]
  · obtain ⟨hrect, hgcur, _, _, _⟩ := ainv_pop_analysis hvs hve hinv hm hmin
    have horig : (foundState startP endP (popState s e)).origin = s.origin := rfl
    rw [horig]
    have hgend : s.g_score endP ≠ none := by
      rw [← hend, hgcur]
      simp
    exact ainv_chainLen hinv (manhattan_distance startP endP) endP
      (numRows * numRows) (onRect_end hve) hgend rfl (man_le_square hvs hve)

/-- From any state carrying the optimality invariant with enough budget m
to pop the remaining grid cells, the run reaches Found with an optimal
chain. -/
theorem ainv_run (hvs : validPos numRows startP) (hve : validPos numRows endP) :
    ∀ (m t : Nat) (s : SearchState), AInv numRows startP endP none s →
      numRows * numRows ≤ s.popped.length + m →
      ∃ (n : Nat) (s' : SearchState),
        runWith queueMin (nbrsOf numRows noBarrier) startP endP noCancel n t s =
          RunResult.found s' ∧
        chainLen s'.origin (numRows * numRows) endP =
          manhattan_distance startP endP := by
  intro m
  induction m with
  | zero =>
    intro t s hinv hb
    have hne := ainv_queue_ne_nil hve hinv
    obtain ⟨e, hch, hm, hmin⟩ := queueMin_valid s.open_set hne
    by_cases hend : e.2.2 = endP
    · obtain ⟨s', h1, h2⟩ := ainv_found_now hvs hve hinv hne hch hm hmin hend t
      exact ⟨1, s', h1, h2⟩
    · exfalso
      obtain ⟨hinv2, hpop2⟩ := ainv_step hvs hve hinv hm hmin hend
      have hlen := ainv_popped_le hinv2
      rw [hpop2, List.length_append, List.length_singleton] at hlen
      omega
  | succ m ih =>
    intro t s hinv hb
    have hne := ainv_queue_ne_nil hve hinv
    obtain ⟨e, hch, hm, hmin⟩ := queueMin_valid s.open_set hne
    by_cases hend : e.2.2 = endP
    · obtain ⟨s', h1, h2⟩ := ainv_found_now hvs hve hinv hne hch hm hmin hend t
      exact ⟨1, s', h1, h2⟩
    · obtain ⟨hinv2, hpop2⟩ := ainv_step hvs hve hinv hm hmin hend
      have hb2 : numRows * numRows ≤
          (stepState (nbrsOf numRows noBarrier) startP endP (popState s e)
            e.2.2).popped.length + m := by
        rw [hpop2, List.length_append, List.length_singleton]
        omega
      obtain ⟨n, s', hrun, hchain⟩ := ih (t + 1) _ hinv2 hb2
      refine ⟨n + 1, s', ?_, hchain⟩
      rw [runWith_succ (nbrsOf numRows noBarrier) startP endP n t hne rfl hch,
        if_neg hend]
      exact hrun

end ShortestPath

/-- C1: on every square barrier-free grid with a Start cell and a distinct
End cell, generate_path terminates with the Found outcome, and the number
of steps of the reconstructed path (the length of the origin chain walked
from the End cell, which reconstruct_path follows) equals the Manhattan
distance between the Start and End coordinates. -/
theorem claim_C1 (numRows : Nat) (startP endP : Pos) (colors0 : Pos → NodeColor)
    (hvs : validPos numRows startP) (hve : validPos numRows endP)
    (hse : startP ≠ endP) :
    ∃ (fuel : Nat) (s' : SearchState),
      generate_path (nbrsOf numRows noBarrier) startP endP noCancel colors0 fuel =
        RunResult.found s' ∧
      chainLen s'.origin (numRows * numRows) endP =
        manhattan_distance startP endP := by
  obtain ⟨n, s', h1, h2⟩ := ainv_run hvs hve (numRows * numRows) 0
    (initState startP endP colors0) (ainv_init hvs colors0) (by simp [initState])
  exact ⟨n, s', h1, h2⟩

/-- C1 witness: the barrier-free 2 x 2 grid with start (0,0) and end (1,1)
yields Found with a 2-step path. -/
theorem claim_C1_witness :
    validPos 2 (0, 0) ∧ validPos 2 (1, 1) ∧ ((0, 0) : Pos) ≠ (1, 1) ∧
    ∃ (fuel : Nat) (s' : SearchState),
      generate_path (nbrsOf 2 noBarrier) (0, 0) (1, 1) noCancel
        (fun _ => NodeColor.white) fuel = RunResult.found s' ∧
      chainLen s'.origin (2 * 2) (1, 1) = manhattan_distance (0, 0) (1, 1) :=
  ⟨⟨by decide, by decide⟩, ⟨by decide, by decide⟩, by decide,
    claim_C1 2 (0, 0) (1, 1) (fun _ => NodeColor.white) ⟨by decide, by decide⟩
      ⟨by decide, by decide⟩ (by decide)⟩

end AStar
